import Mathlib

/-!
A shallow embedding of the event/message core of the matui terminal Matrix
client (src/widgets/message.rs, src/widgets/chat.rs, src/widgets/receipts.rs,
src/matrix/notify.rs, src/matrix/matrix.rs, src/settings.rs), with proofs of
the claimed properties of the message tree, receipts, ordering, notification
gating, sync retry and settings logic.

Identifier-like values (event ids, user ids, room ids) are strings; Matrix
millisecond timestamps are natural numbers.
-/

abbrev EventId := String
abbrev UserId := String
abbrev RoomId := String
abbrev Timestamp := Nat

/-- ruma MessageType, restricted to the variants matui distinguishes
(Text / Image / Video / File carry a body; everything else is opaque). -/
inductive MessageType where
  | text (body : String)
  | image (body : String)
  | video (body : String)
  | file (body : String)
  | other
deriving DecidableEq, Repr

/-- Is this one of the four msgtypes Message::try_from accepts? -/
def MessageType.supported : MessageType → Bool
  | .text _ | .image _ | .video _ | .file _ => true
  | .other => false

/-- The body text, as ruma MessageType::body() (used for search). -/
def MessageType.bodyText : MessageType → String
  | .text b | .image b | .video b | .file b => b
  | .other => ""

/-- ruma Relation, restricted to the variants matui inspects. -/
inductive Relation where
  | replacement (eventId : EventId) (newContent : MessageType)
  | reply (inReplyTo : EventId)
deriving DecidableEq, Repr

/-- An original room-message timeline event (the fields matui reads). -/
structure RoomMessageEvent where
  eventId : EventId
  roomId : RoomId
  sender : UserId
  originServerTs : Timestamp
  msgtype : MessageType
  relatesTo : Option Relation
deriving DecidableEq, Repr

/-- An original reaction timeline event: relates_to carries the annotated
event id and the reaction key. -/
structure ReactionTimelineEvent where
  eventId : EventId
  roomId : RoomId
  sender : UserId
  originServerTs : Timestamp
  key : String
  relatesId : EventId
deriving DecidableEq, Repr

/-- An original room-redaction timeline event; `redacts` may be absent. -/
structure RedactionTimelineEvent where
  eventId : EventId
  roomId : RoomId
  sender : UserId
  originServerTs : Timestamp
  redacts : Option EventId
deriving DecidableEq, Repr

/-- ruma AnyTimelineEvent, restricted to the payloads matui inspects; the
`opaque_` constructor stands for every other event kind (state, typing, ...),
of which only the id / timestamp / room are read. -/
inductive AnyTimelineEvent where
  | roomMessage (e : RoomMessageEvent)
  | reaction (e : ReactionTimelineEvent)
  | redaction (e : RedactionTimelineEvent)
  | opaque_ (eventId : EventId) (roomId : RoomId) (sender : UserId)
      (originServerTs : Timestamp)
deriving DecidableEq, Repr

def AnyTimelineEvent.eventId : AnyTimelineEvent → EventId
  | .roomMessage e => e.eventId
  | .reaction e => e.eventId
  | .redaction e => e.eventId
  | .opaque_ i _ _ _ => i

def AnyTimelineEvent.originServerTs : AnyTimelineEvent → Timestamp
  | .roomMessage e => e.originServerTs
  | .reaction e => e.originServerTs
  | .redaction e => e.originServerTs
  | .opaque_ _ _ _ t => t

def AnyTimelineEvent.roomId : AnyTimelineEvent → RoomId
  | .roomMessage e => e.roomId
  | .reaction e => e.roomId
  | .redaction e => e.roomId
  | .opaque_ _ r _ _ => r

/-- matrix/username.rs: a user id with a display name that can be updated
as room members arrive. -/
structure Username where
  id : UserId
  displayName : Option String
deriving DecidableEq, Repr

def Username.new (id : UserId) : Username := ⟨id, none⟩

/-- A room member, as far as Username::update reads it: an id plus an
optional display name. -/
structure Member where
  userId : UserId
  displayName : Option String
deriving DecidableEq, Repr

/-- Username::update: take the member's display name when the ids match. -/
def Username.update (u : Username) (m : Member) : Username :=
  if u.id = m.userId then ⟨u.id, m.displayName⟩ else u

/-- widgets/message.rs ReactionEvent: one reaction event id and its sender. -/
structure ReactionEvent where
  id : EventId
  sender : Username
deriving DecidableEq, Repr

def ReactionEvent.new (id : EventId) (senderId : UserId) : ReactionEvent :=
  ⟨id, Username.new senderId⟩

/-- widgets/message.rs Reaction: a single emoji key with one event per
reacting user. (The render cache `list_view` is omitted.) -/
structure Reaction where
  body : String
  events : List ReactionEvent
deriving DecidableEq, Repr

/-- widgets/message.rs Message. The three OnceCell render caches
(body_lower, search_term, display_cache) are omitted: they never feed back
into the structural fields. Lean structures cannot be recursive, so this is
an inductive with explicit projections below. -/
inductive Message where
  | mk (id : EventId) (inReplyTo : Option EventId) (roomId : RoomId)
      (sent : Timestamp) (body : MessageType) (history : List MessageType)
      (sender : Username) (reactions : List Reaction)
      (replies : List Message) (receipts : List Username)

def Message.id : Message → EventId
  | .mk i _ _ _ _ _ _ _ _ _ => i

def Message.inReplyTo : Message → Option EventId
  | .mk _ r _ _ _ _ _ _ _ _ => r

def Message.roomId : Message → RoomId
  | .mk _ _ r _ _ _ _ _ _ _ => r

def Message.sent : Message → Timestamp
  | .mk _ _ _ s _ _ _ _ _ _ => s

def Message.body : Message → MessageType
  | .mk _ _ _ _ b _ _ _ _ _ => b

def Message.history : Message → List MessageType
  | .mk _ _ _ _ _ h _ _ _ _ => h

def Message.sender : Message → Username
  | .mk _ _ _ _ _ _ s _ _ _ => s

def Message.reactions : Message → List Reaction
  | .mk _ _ _ _ _ _ _ r _ _ => r

def Message.replies : Message → List Message
  | .mk _ _ _ _ _ _ _ _ r _ => r

def Message.receipts : Message → List Username
  | .mk _ _ _ _ _ _ _ _ _ r => r

/-- Message::edit: swap in the new body, pushing the old one onto history. -/
def Message.edit (m : Message) (newBody : MessageType) : Message :=
  match m with
  | .mk i irt rid s b h sen rea rep rec_ =>
      .mk i irt rid s newBody (h ++ [b]) sen rea rep rec_

/-- Message::try_from(event, force): build a brand-new Message from a
room-message event. Unsupported msgtypes and replacements give none;
replies give none unless `force`. -/
def Message.tryFrom (event : AnyTimelineEvent) (force : Bool) : Option Message :=
  match event with
  | .roomMessage c =>
      if c.msgtype.supported then
        match c.relatesTo with
        | some (.replacement _ _) => none
        | some (.reply id) =>
            if force then
              some (.mk c.eventId (some id) c.roomId c.originServerTs
                c.msgtype [] (Username.new c.sender) [] [] [])
            else
              none
        | none =>
            some (.mk c.eventId none c.roomId c.originServerTs
              c.msgtype [] (Username.new c.sender) [] [] [])
      else
        none
  | _ => none

inductive MergeResult where
  | consumed
  | missed
  | ignored
deriving DecidableEq, Repr

/-- The replacement scan of apply_timeline_event: edit the first message
whose id matches, returning none when no message at this level matches. -/
def applyEditScan (messages : List Message) (id : EventId)
    (content : MessageType) : Option (List Message) :=
  match messages with
  | [] => none
  | m :: ms =>
      if m.id = id then some (m.edit content :: ms)
      else (applyEditScan ms id content).map (m :: ·)

/-- Push a reply onto a message's reply list. -/
def Message.pushReply (m : Message) (r : Message) : Message :=
  match m with
  | .mk i irt rid s b h sen rea rep rec_ =>
      .mk i irt rid s b h sen rea (rep ++ [r]) rec_

/-- The reply scan of apply_timeline_event in the depth ≤ 3 case: push the
reply under the first message whose id matches and move that message to the
end of the list (most-recent-activity ordering). -/
def applyReplyScan (messages : List Message) (id : EventId)
    (reply : Message) : Option (List Message) :=
  match messages with
  | [] => none
  | m :: ms =>
      if m.id = id then some (ms ++ [m.pushReply reply])
      else (applyReplyScan ms id reply).map (m :: ·)

/-- Push a reaction onto a message's reaction list. -/
def Message.pushReaction (m : Message) (r : Reaction) : Message :=
  match m with
  | .mk i irt rid s b h sen rea rep rec_ =>
      .mk i irt rid s b h sen (rea ++ [r]) rep rec_

/-- The reaction scan of apply_timeline_event: append a single-event
Reaction to the first message whose id matches the annotated id. -/
def applyReactionScan (messages : List Message) (relatesId : EventId)
    (r : Reaction) : Option (List Message) :=
  match messages with
  | [] => none
  | m :: ms =>
      if m.id = relatesId then some (m.pushReaction r :: ms)
      else (applyReactionScan ms relatesId r).map (m :: ·)

/-- The redaction pass over one message: drop reaction events whose id is
the redacted id, then drop reactions left with no events. -/
def Message.redactReactions (m : Message) (id : EventId) : Message :=
  match m with
  | .mk i irt rid s b h sen rea rep rec_ =>
      .mk i irt rid s b h sen
        (((rea.map fun r => { r with events := r.events.filter (·.id ≠ id) }).filter
          fun r => ¬r.events.isEmpty))
        rep rec_

/-- The redaction pass of apply_timeline_event over one level: clean every
message's reactions, then drop messages whose own id is redacted. -/
def applyRedaction (messages : List Message) (id : EventId) : List Message :=
  (messages.map (Message.redactReactions · id)).filter (·.id ≠ id)

theorem sizeOf_filter_le {α} [SizeOf α] (p : α → Bool) (l : List α) :
    sizeOf (l.filter p) ≤ sizeOf l := by
  induction l with
  | nil => simp
  | cons a l ih =>
      simp only [List.filter]
      cases p a <;> simp <;> omega

theorem sizeOf_map_le {α β} [SizeOf α] [SizeOf β] (f : α → β) (l : List α)
    (h : ∀ a ∈ l, sizeOf (f a) ≤ sizeOf a) : sizeOf (l.map f) ≤ sizeOf l := by
  induction l with
  | nil => simp
  | cons a l ih =>
      simp only [List.map, List.cons.sizeOf_spec]
      have h1 := h a (by simp)
      have h2 := ih fun a ha => h a (by simp [ha])
      omega

theorem sizeOf_redactReactions_le (m : Message) (id : EventId) :
    sizeOf (m.redactReactions id) ≤ sizeOf m := by
  match m with
  | .mk i irt rid s b h sen rea rep rec_ =>
      simp only [Message.redactReactions, Message.mk.sizeOf_spec]
      have h1 :
          sizeOf (((rea.map fun r =>
              { r with events := r.events.filter (·.id ≠ id) }).filter
            fun r => ¬r.events.isEmpty)) ≤
          sizeOf (rea.map fun r =>
            { r with events := r.events.filter (·.id ≠ id) }) := by
        exact sizeOf_filter_le _ _
      have h2 : sizeOf (rea.map fun r =>
          { r with events := r.events.filter (·.id ≠ id) }) ≤ sizeOf rea := by
        refine sizeOf_map_le _ _ fun r _ => ?_
        match r with
        | .mk body events =>
            simp only [Reaction.mk.sizeOf_spec]
            have := sizeOf_filter_le (fun e => decide (e.id ≠ id)) events
            simp only [Reaction.events] at *
            omega
      omega

theorem sizeOf_applyRedaction_le (messages : List Message) (id : EventId) :
    sizeOf (applyRedaction messages id) ≤ sizeOf messages := by
  unfold applyRedaction
  calc sizeOf ((messages.map (Message.redactReactions · id)).filter (·.id ≠ id))
      ≤ sizeOf (messages.map (Message.redactReactions · id)) :=
        sizeOf_filter_le _ _
    _ ≤ sizeOf messages :=
        sizeOf_map_le _ _ fun m _ => sizeOf_redactReactions_le m id

mutual

/-- Message::apply_timeline_event: apply a non-starting event to a list of
messages, returning the updated list and Consumed / Missed / Ignored.
Mirrors the Rust control flow: replacement scan (early return on hit),
reply scan (early return on hit, sibling when depth > 3), reaction scan
(early return on hit), redaction pass (result not tracked), then recursion
into every message's replies carrying the current result. -/
def Message.applyTimelineEvent (messages : List Message)
    (event : AnyTimelineEvent) (depth : Nat) : List Message × MergeResult :=
  match event with
  | .roomMessage c =>
      match c.relatesTo with
      | some (.replacement id content) =>
          match applyEditScan messages id content with
          | some ms => (ms, .consumed)
          | none => Message.applyToReplies messages event depth .ignored
      | some (.reply id) =>
          match Message.tryFrom event true with
          | some reply =>
              if depth > 3 then
                if messages.any (·.id = id) then
                  (messages ++ [reply], .consumed)
                else
                  Message.applyToReplies messages event depth .missed
              else
                match applyReplyScan messages id reply with
                | some ms => (ms, .consumed)
                | none => Message.applyToReplies messages event depth .missed
          | none => Message.applyToReplies messages event depth .missed
      | none => Message.applyToReplies messages event depth .ignored
  | .reaction c =>
      match applyReactionScan messages c.relatesId
          ⟨c.key, [ReactionEvent.new c.eventId c.sender]⟩ with
      | some ms => (ms, .consumed)
      | none => Message.applyToReplies messages event depth .ignored
  | .redaction c =>
      match c.redacts with
      | some id =>
          Message.applyToReplies (applyRedaction messages id) event depth .ignored
      | none => Message.applyToReplies messages event depth .ignored
  | .opaque_ .. => Message.applyToReplies messages event depth .ignored
termination_by 2 * sizeOf messages + 1
decreasing_by
  all_goals try omega
  all_goals
    have h9 := sizeOf_applyRedaction_le messages id
    omega

/-- The final loop of apply_timeline_event: recurse into each non-empty
reply list at depth + 1; a recursion result other than Missed overwrites
the accumulated result. -/
def Message.applyToReplies (messages : List Message)
    (event : AnyTimelineEvent) (depth : Nat) (acc : MergeResult) :
    List Message × MergeResult :=
  match messages with
  | [] => ([], acc)
  | .mk i irt rid s b h sen rea rep rec_ :: ms =>
      if rep.isEmpty then
        let (ms2, acc2) := Message.applyToReplies ms event depth acc
        (.mk i irt rid s b h sen rea rep rec_ :: ms2, acc2)
      else
        let (rep2, result) := Message.applyTimelineEvent rep event (depth + 1)
        let acc2 := if result ≠ .missed then result else acc
        let (ms2, acc3) := Message.applyToReplies ms event depth acc2
        (.mk i irt rid s b h sen rea rep2 rec_ :: ms2, acc3)
termination_by 2 * sizeOf messages
decreasing_by
  all_goals simp only [List.cons.sizeOf_spec, Message.mk.sizeOf_spec]
  all_goals omega

end

mutual

/-- Reply-nesting height of a message: 0 with no replies, one more than the
deepest reply otherwise. Used to state the depth-cap invariant. -/
def Message.height : Message → Nat
  | .mk _ _ _ _ _ _ _ _ replies _ => heightList replies

/-- Greatest `1 + height` over a list of replies (0 for none). -/
def heightList : List Message → Nat
  | [] => 0
  | m :: ms => max (1 + m.height) (heightList ms)

end

/-- widgets/receipts.rs Receipt: a borrowed (timestamp, user id) pair; its
derived Ord is lexicographic on (timestamp, user_id), which is the order the
BinaryHeap in apply_receipts pops in (largest first). -/
structure Receipt where
  timestamp : Timestamp
  userId : UserId
deriving DecidableEq, Repr

/-- The BinaryHeap pop order of Receipt: by timestamp, then user id,
descending. `heapGE a b` says a pops no later than b. -/
def Receipt.heapGE (a b : Receipt) : Bool :=
  if a.timestamp = b.timestamp then decide (b.userId ≤ a.userId)
  else decide (b.timestamp < a.timestamp)

def Message.pushReceipt (m : Message) (u : UserId) : Message :=
  match m with
  | .mk i irt rid s b h sen rea rep rec_ =>
      .mk i irt rid s b h sen rea rep (rec_ ++ [Username.new u])

/-- The inner while-loop of apply_receipts: pop every receipt whose
timestamp is strictly greater than the message's sent time onto it. The
heap is modelled as a list sorted in pop order (Receipt.heapGE). -/
def attachReceipts (m : Message) (heap : List Receipt) :
    Message × List Receipt :=
  match heap with
  | [] => (m, [])
  | r :: rest =>
      if r.timestamp > m.sent then attachReceipts (m.pushReceipt r.userId) rest
      else (m, r :: rest)

/-- Message::apply_receipts. `og` is the heap as it stood on entry to this
call (Rust's og_heap); the messages are walked in reverse, each reply chain
first gets a fresh clone of `og`, then receipts are popped onto the message
itself from the threaded heap. -/
def Message.applyReceiptsAux (og : List Receipt) :
    List Message → List Receipt → List Message × List Receipt
  | [], heap => ([], heap)
  | .mk i irt rid s b h sen rea rep rec_ :: ms, heap =>
      let (ms2, heap2) := Message.applyReceiptsAux og ms heap
      let rep2 :=
        if rep.isEmpty then rep else (Message.applyReceiptsAux og rep og).1
      let (m2, heap3) :=
        attachReceipts (.mk i irt rid s b h sen rea rep2 rec_) heap2
      (m2 :: ms2, heap3)
termination_by messages _ => sizeOf messages
decreasing_by
  all_goals simp only [List.cons.sizeOf_spec, Message.mk.sizeOf_spec]
  all_goals omega

def Message.applyReceipts (messages : List Message) (heap : List Receipt) :
    List Message × List Receipt :=
  Message.applyReceiptsAux heap messages heap

/-- The inner loop of Reaction::merge over the accumulator: drain the new
reaction's events into every accumulator entry with the same body (only the
first gets them; later matches drain an already-empty list), reporting
whether any entry matched. Returns the updated accumulator, the drained
reaction, and the `added` flag. -/
def Reaction.mergeInto : List Reaction → Reaction →
    List Reaction × Reaction × Bool
  | [], r => ([], r, false)
  | m :: ms, r =>
      if m.body = r.body then
        let m2 : Reaction := { m with events := m.events ++ r.events }
        let (ms2, r3, _) := Reaction.mergeInto ms { r with events := [] }
        (m2 :: ms2, r3, true)
      else
        let (ms2, r3, added) := Reaction.mergeInto ms r
        (m :: ms2, r3, added)

/-- Reaction::merge: coalesce a list of reactions by body; a reaction whose
body is new is pushed onto the end of the accumulator. -/
def Reaction.merge (reactions : List Reaction) : List Reaction :=
  reactions.foldl
    (fun merged r =>
      let (merged2, r2, added) := Reaction.mergeInto merged r
      if added then merged2 else merged2 ++ [r2])
    []

/-- widgets/chat.rs OrderedEvent: a timeline event with the total order
used by the per-room BTreeSet. -/
structure OrderedEvent where
  inner : AnyTimelineEvent
deriving DecidableEq, Repr

def OrderedEvent.eventId (e : OrderedEvent) : EventId := e.inner.eventId

def OrderedEvent.originServerTs (e : OrderedEvent) : Timestamp :=
  e.inner.originServerTs

/-- impl Ord for OrderedEvent: equal ids compare equal; equal timestamps
fall back to the (lexicographic) id order; otherwise timestamp order. -/
def OrderedEvent.cmp (a b : OrderedEvent) : Ordering :=
  if a.eventId = b.eventId then .eq
  else if a.originServerTs = b.originServerTs then compare a.eventId b.eventId
  else compare a.originServerTs b.originServerTs

/-- BTreeSet::insert under OrderedEvent.cmp, the set modelled as a sorted
list: an element comparing equal to an existing one is not inserted. -/
def insertOrdered (e : OrderedEvent) : List OrderedEvent → List OrderedEvent
  | [] => [e]
  | x :: xs =>
      match OrderedEvent.cmp e x with
      | .lt => e :: x :: xs
      | .eq => x :: xs
      | .gt => x :: insertOrdered e xs

/-- widgets/receipts.rs Receipts: per-user read markers (the BTreeMap is
modelled as an association list with one entry per user) plus the ignored
local user. -/
structure Receipts where
  markers : List (UserId × Timestamp)
  ignore : UserId

def Receipts.new (ignore : UserId) : Receipts := ⟨[], ignore⟩

/-- Store ts under u, replacing an existing entry for u in place (BTreeMap
entry semantics; a fresh user lands at the end of the association list). -/
def setMarker : List (UserId × Timestamp) → UserId → Timestamp →
    List (UserId × Timestamp)
  | [], u, ts => [(u, ts)]
  | (k, v) :: rest, u, ts =>
      if k = u then (k, ts) :: rest else (k, v) :: setMarker rest u ts

/-- BTreeMap::get on the association list of markers. -/
def lookupMarker : List (UserId × Timestamp) → UserId → Option Timestamp
  | [], _ => none
  | (k, v) :: rest, u => if k = u then some v else lookupMarker rest u

/-- Receipts::apply_timestamp_and_user: ignore the local user; insert a
fresh marker; overwrite an existing one only with a strictly newer
timestamp. -/
def Receipts.applyTimestampAndUser (r : Receipts) (timestamp : Timestamp)
    (userId : UserId) : Receipts :=
  if userId = r.ignore then r
  else
    match lookupMarker r.markers userId with
    | none => { r with markers := setMarker r.markers userId timestamp }
    | some old =>
        if timestamp > old then
          { r with markers := setMarker r.markers userId timestamp }
        else r

/-- A ruma ReceiptEventContent as Receipts::apply_event reads it: for each
event id, the optional ReceiptType::Read table, mapping user ids to
receipts with an optional timestamp. -/
structure ReceiptEventContent where
  entries : List (Option (List (UserId × Option Timestamp)))

/-- Receipts::apply_event: fold every Read receipt carrying a timestamp
into the marker table. -/
def Receipts.applyEvent (r : Receipts) (event : ReceiptEventContent) :
    Receipts :=
  event.entries.foldl
    (fun r types =>
      match types with
      | some userIds =>
          userIds.foldl
            (fun r p =>
              match p.2 with
              | some ts => r.applyTimestampAndUser ts p.1
              | none => r)
            r
      | none => r)
    r

/-- Receipts::get_all: the heap's contents are exactly the marker entries. -/
def Receipts.getAll (r : Receipts) : List Receipt :=
  r.markers.map fun p => ⟨p.2, p.1⟩

/-- matrix/notify.rs Notify, reduced to the state its gating reads: the
focus flag and the room last visited. -/
structure NotifyState where
  focus : Bool
  roomId : Option RoomId

/-- The OS notification Notify::timeline_event would emit (summary /
avatar resolution is I/O and is not modelled). -/
structure OsNotification where
  senderId : UserId
  roomId : RoomId
  body : MessageType
deriving DecidableEq, Repr

/-- Notify::timeline_event as a pure decision: build a Message from the
event; drop it when the sender is the local user, the room is muted, or the
app is focused on that room; otherwise notify. -/
def Notify.timelineEvent (st : NotifyState) (localUserId : UserId)
    (muted : RoomId → Bool) (event : AnyTimelineEvent) :
    Option OsNotification :=
  match Message.tryFrom event false with
  | none => none
  | some message =>
      if message.sender.id = localUserId then none
      else if muted message.roomId then none
      else if st.focus ∧ st.roomId = some message.roomId then none
      else some ⟨message.sender.id, message.roomId, message.body⟩

/-- matrix/matrix.rs FullSession: the persisted session file. The client
and user session blobs are opaque here. -/
structure FullSession where
  clientSession : String
  userSession : String
  syncToken : Option String
deriving DecidableEq, Repr

/-- persist_sync_token: rewrite the session file with the new token. -/
def persistSyncToken (file : FullSession) (token : String) : FullSession :=
  { file with syncToken := some token }

/-- The retry loop of sync_once: `attempts i` is the result of the i-th SDK
sync_once call; `fuel` counts the remaining tries. Returns the session file
as left on disk together with the command's result. -/
def syncOnceAux (attempts : Nat → Except String String) (file : FullSession)
    (i : Nat) : Nat → FullSession × Except String String
  | 0 => (file, .error "Sync timeout.")
  | fuel + 1 =>
      match attempts i with
      | .ok response => (persistSyncToken file response, .ok response)
      | .error _ => syncOnceAux attempts file (i + 1) fuel

/-- matrix/matrix.rs sync_once: up to 10 attempts; the first success
persists and returns its next_batch token; otherwise `Sync timeout.`. -/
def syncOnce (attempts : Nat → Except String String) (file : FullSession) :
    FullSession × Except String String :=
  syncOnceAux attempts file 0 10

/-- usize::MAX on the 64-bit targets matui builds for. -/
def usizeMax : Nat := 2 ^ 64 - 1

/-- settings.rs max_events: the parsed `max_events` i32 (none when the key
is absent or unparsable); -1 means unbounded, positive means itself,
anything else falls back to 1024. -/
def maxEvents (setting : Option Int) : Nat :=
  match setting with
  | some i => if i = -1 then usizeMax else if i > 0 then i.toNat else 1024
  | none => 1024

def Message.setReactions (m : Message) (rea : List Reaction) : Message :=
  match m with
  | .mk i irt rid s b h sen _ rep rec_ =>
      .mk i irt rid s b h sen rea rep rec_

def Username.updateAll (u : Username) (members : List Member) : Username :=
  members.foldl Username.update u

mutual

/-- Message::update_senders: resolve the sender, reaction senders and
receipt names against the member list, then recurse into the replies. -/
def Message.updateSenders : Message → List Member → Message
  | .mk i irt rid s b h sen rea rep rec_, members =>
      .mk i irt rid s b h (sen.updateAll members)
        (rea.map fun r =>
          { r with events := r.events.map fun e =>
              { e with sender := e.sender.updateAll members } })
        (updateSendersList rep members)
        (rec_.map fun u => u.updateAll members)

/-- update_senders over each reply. -/
def updateSendersList : List Message → List Member → List Message
  | [], _ => []
  | m :: ms, members => m.updateSenders members :: updateSendersList ms members

end

mutual

/-- Message::contains_search_term: an empty term matches everything;
otherwise the lowercased body, or any reply, must contain the term. -/
def Message.containsSearchTerm : Message → String → Bool
  | .mk _ _ _ _ b _ _ _ rep _, term =>
      if term.isEmpty then true
      else
        (b.bodyText.toLower.splitOn term).length > 1 ||
          listContainsSearchTerm rep term

/-- contains_search_term over the replies (iter().any). -/
def listContainsSearchTerm : List Message → String → Bool
  | [], _ => false
  | m :: ms, term => m.containsSearchTerm term || listContainsSearchTerm ms term

end

/-- Receipts::get_all as consumed by apply_receipts: the BinaryHeap is
modelled by its pop order, descending (timestamp, user id). -/
def heapList (rs : List Receipt) : List Receipt :=
  rs.mergeSort Receipt.heapGE

/-- widgets/chat.rs make_message_list: fold the room's ordered event set
into a message tree (try_from first, then apply_timeline_event, forcing
orphan replies in on a Missed), filter by the search term, fan receipts
out, resolve senders, merge each top-level message's reactions, and
reverse for bottom-up rendering. -/
def makeMessageList (timeline : List OrderedEvent) (members : List Member)
    (receipts : Receipts) (searchTerm : String) : List Message :=
  let messages := timeline.foldl
    (fun messages event =>
      match Message.tryFrom event.inner false with
      | some message => messages ++ [message]
      | none =>
          let (ms, result) := Message.applyTimelineEvent messages event.inner 0
          if result = .missed then
            match Message.tryFrom event.inner true with
            | some message => ms ++ [message]
            | none => ms
          else ms)
    []
  let messages :=
    if ¬searchTerm.isEmpty then
      messages.filter (·.containsSearchTerm searchTerm)
    else messages
  let messages := (Message.applyReceipts messages (heapList receipts.getAll)).1
  let messages := messages.map (Message.updateSenders · members)
  let messages := messages.map fun m => m.setReactions (Reaction.merge m.reactions)
  messages.reverse

/-- Chat::timeline_event, restricted to the event-set mutation: events for
another room are dropped; otherwise the event is inserted into the ordered
set (which dedups by id) and the message list is rebuilt. -/
def chatTimelineEvent (chatRoomId : RoomId) (events : List OrderedEvent)
    (event : AnyTimelineEvent) : List OrderedEvent :=
  if event.roomId ≠ chatRoomId then events
  else insertOrdered ⟨event⟩ events

/-! ### Helper lemmas for the sync retry loop (C8) -/

theorem syncOnceAux_all_fail (attempts : Nat → Except String String)
    (file : FullSession) :
    ∀ (fuel i : Nat), (∀ j, j < fuel → ∃ e, attempts (i + j) = .error e) →
      syncOnceAux attempts file i fuel = (file, .error "Sync timeout.") := by
  intro fuel
  induction fuel with
  | zero => intro i _; rfl
  | succ n ih =>
      intro i h
      obtain ⟨e, he⟩ := h 0 (by omega)
      simp only [Nat.add_zero] at he
      simp only [syncOnceAux, he]
      apply ih
      intro j hj
      obtain ⟨e2, he2⟩ := h (j + 1) (by omega)
      exact ⟨e2, by rw [← he2]; ring_nf⟩

theorem syncOnceAux_first_ok (attempts : Nat → Except String String)
    (file : FullSession) (tok : String) :
    ∀ (fuel k i : Nat), k < fuel →
      (∀ j, j < k → ∃ e, attempts (i + j) = .error e) →
      attempts (i + k) = .ok tok →
      syncOnceAux attempts file i fuel =
        (persistSyncToken file tok, .ok tok) := by
  intro fuel
  induction fuel with
  | zero => intro k i hk; omega
  | succ n ih =>
      intro k i hk hfail hok
      match k with
      | 0 =>
          simp only [Nat.add_zero] at hok
          simp only [syncOnceAux, hok]
      | k + 1 =>
          obtain ⟨e, he⟩ := hfail 0 (by omega)
          simp only [Nat.add_zero] at he
          simp only [syncOnceAux, he]
          apply ih k (i + 1) (by omega)
          · intro j hj
            obtain ⟨e2, he2⟩ := hfail (j + 1) (by omega)
            exact ⟨e2, by rw [← he2]; ring_nf⟩
          · rw [← hok]; ring_nf

theorem syncOnceAux_congr (attempts attempts2 : Nat → Except String String)
    (file : FullSession) :
    ∀ (fuel i : Nat), (∀ j, j < fuel → attempts (i + j) = attempts2 (i + j)) →
      syncOnceAux attempts file i fuel = syncOnceAux attempts2 file i fuel := by
  intro fuel
  induction fuel with
  | zero => intro i _; rfl
  | succ n ih =>
      intro i h
      have h0 := h 0 (by omega)
      simp only [Nat.add_zero] at h0
      simp only [syncOnceAux, h0]
      cases attempts2 i with
      | ok tok => rfl
      | error e =>
          apply ih
          intro j hj
          have := h (j + 1) (by omega)
          rw [show i + (j + 1) = i + 1 + j by ring] at this
          exact this

/-- C8: the one-shot sync makes at most 10 attempts (its result only
depends on the first 10 attempt results); the first success persists the
returned token to the session file and returns it; if all 10 attempts fail
the command fails with "Sync timeout." and the session file is untouched. -/
theorem C8_sync_once_retries (file : FullSession)
    (attempts : Nat → Except String String) :
    ((∀ i, i < 10 → ∃ e, attempts i = .error e) →
        syncOnce attempts file = (file, .error "Sync timeout.")) ∧
    (∀ i tok, i < 10 → (∀ j, j < i → ∃ e, attempts j = .error e) →
        attempts i = .ok tok →
        syncOnce attempts file =
          ({ file with syncToken := some tok }, .ok tok)) ∧
    (∀ attempts2 : Nat → Except String String,
        (∀ i, i < 10 → attempts i = attempts2 i) →
        syncOnce attempts file = syncOnce attempts2 file) := by
  refine ⟨?_, ?_, ?_⟩
  · intro h
    exact syncOnceAux_all_fail attempts file 10 0 (by simpa using h)
  · intro i tok hi hfail hok
    exact syncOnceAux_first_ok attempts file tok 10 i 0 hi
      (by simpa using hfail) (by simpa using hok)
  · intro attempts2 h
    exact syncOnceAux_congr attempts attempts2 file 10 0 (by simpa using h)

/-- Witness for C8 at a concrete attempt sequence failing twice before
succeeding with token "tok". -/
theorem C8_sync_once_retries_witness :
    syncOnce (fun i => if i = 2 then .ok "tok" else .error "boom")
        ⟨"client", "user", none⟩ =
      (⟨"client", "user", some "tok"⟩, .ok "tok") := by
  have h := (C8_sync_once_retries ⟨"client", "user", none⟩
    (fun i => if i = 2 then .ok "tok" else .error "boom")).2.1 2 "tok"
    (by omega)
    (fun j hj => ⟨"boom", by simp [show j ≠ 2 by omega]⟩)
    (by simp)
  simpa using h

/-- C9: max_events() is usize::MAX when the configured value is -1, the
value itself when positive, and the fallback 1024 when the setting is
absent, zero, or negative other than -1. -/
theorem C9_max_events :
    maxEvents (some (-1)) = usizeMax ∧
    (∀ i : Int, 0 < i → maxEvents (some i) = i.toNat) ∧
    maxEvents none = 1024 ∧
    (∀ i : Int, i ≤ 0 → i ≠ -1 → maxEvents (some i) = 1024) := by
  refine ⟨rfl, ?_, rfl, ?_⟩
  · intro i hi
    simp only [maxEvents]
    rw [if_neg (by omega), if_pos hi]
  · intro i h1 h2
    simp only [maxEvents]
    rw [if_neg h2, if_neg (by omega)]

/-- Witness for C9 at the concrete settings 7 and -3. -/
theorem C9_max_events_witness :
    maxEvents (some 7) = (7 : Int).toNat ∧ maxEvents (some (-3)) = 1024 :=
  ⟨C9_max_events.2.1 7 (by norm_num), C9_max_events.2.2.2 (-3) (by norm_num) (by norm_num)⟩

/-- C7: Notify::timeline_event emits nothing when the sender is the local
user, when the room is muted, or when the app is focused on the message's
room. -/
theorem C7_notify_gating (st : NotifyState) (localUserId : UserId)
    (muted : RoomId → Bool) (event : AnyTimelineEvent) (message : Message)
    (hm : Message.tryFrom event false = some message)
    (h : message.sender.id = localUserId ∨ muted message.roomId = true ∨
        (st.focus = true ∧ st.roomId = some message.roomId)) :
    Notify.timelineEvent st localUserId muted event = none := by
  simp only [Notify.timelineEvent, hm]
  rcases h with h | h | h
  · simp [h]
  · simp [h]
  · simp [h.1, h.2]

/-- Witness for C7: a message from the local user produces no
notification. -/
theorem C7_notify_gating_witness :
    Notify.timelineEvent ⟨false, none⟩ "@me:x" (fun _ => false)
      (.roomMessage ⟨"$e1", "!r:x", "@me:x", 10, .text "hi", none⟩) = none :=
  C7_notify_gating ⟨false, none⟩ "@me:x" (fun _ => false)
    (.roomMessage ⟨"$e1", "!r:x", "@me:x", 10, .text "hi", none⟩)
    (.mk "$e1" none "!r:x" 10 (.text "hi") [] (Username.new "@me:x") [] [] [])
    rfl (Or.inl rfl)

theorem OrderedEvent.cmp_self (e : OrderedEvent) : OrderedEvent.cmp e e = .eq := by
  simp [OrderedEvent.cmp]

theorem insertOrdered_idem (e : OrderedEvent) (s : List OrderedEvent) :
    insertOrdered e (insertOrdered e s) = insertOrdered e s := by
  induction s with
  | nil => simp [insertOrdered, OrderedEvent.cmp_self]
  | cons x xs ih =>
      simp only [insertOrdered]
      rcases hc : OrderedEvent.cmp e x with _ | _ | _
      · simp [insertOrdered, OrderedEvent.cmp_self, hc]
      · simp [insertOrdered, hc]
      · simp [insertOrdered, hc, ih]

/-- C4: equal event ids compare equal regardless of timestamps; distinct
ids order by origin timestamp with lexicographic id tie-break; inserting
the same event twice into the ordered set changes nothing, so the rebuilt
message list is also unchanged. -/
theorem C4_ordered_event_dedup :
    (∀ a b : OrderedEvent, a.eventId = b.eventId →
        OrderedEvent.cmp a b = .eq) ∧
    (∀ a b : OrderedEvent, a.eventId ≠ b.eventId →
        OrderedEvent.cmp a b =
          if a.originServerTs = b.originServerTs then
            compare a.eventId b.eventId
          else compare a.originServerTs b.originServerTs) ∧
    (∀ (e : OrderedEvent) (s : List OrderedEvent),
        insertOrdered e (insertOrdered e s) = insertOrdered e s) ∧
    (∀ (e : OrderedEvent) (s : List OrderedEvent) (members : List Member)
        (receipts : Receipts) (term : String),
        makeMessageList (insertOrdered e (insertOrdered e s)) members
            receipts term =
          makeMessageList (insertOrdered e s) members receipts term) := by
  refine ⟨?_, ?_, insertOrdered_idem, ?_⟩
  · intro a b h
    simp [OrderedEvent.cmp, h]
  · intro a b h
    simp [OrderedEvent.cmp, h]
  · intro e s members receipts term
    rw [insertOrdered_idem]

/-- Witness for C4: two events sharing an id but not a timestamp compare
equal; the double insert of a concrete event is a no-op. -/
theorem C4_ordered_event_dedup_witness :
    OrderedEvent.cmp ⟨.opaque_ "$e" "!r" "@u" 1⟩ ⟨.opaque_ "$e" "!r" "@u" 2⟩ = .eq ∧
    insertOrdered ⟨.opaque_ "$e" "!r" "@u" 1⟩
        (insertOrdered ⟨.opaque_ "$e" "!r" "@u" 1⟩ []) =
      insertOrdered ⟨.opaque_ "$e" "!r" "@u" 1⟩ [] :=
  ⟨C4_ordered_event_dedup.1 ⟨.opaque_ "$e" "!r" "@u" 1⟩ ⟨.opaque_ "$e" "!r" "@u" 2⟩ rfl,
    C4_ordered_event_dedup.2.2.1 ⟨.opaque_ "$e" "!r" "@u" 1⟩ []⟩


/-! ### Helper lemmas for the receipts index (C10) -/

theorem lookupMarker_setMarker_self (l : List (UserId × Timestamp))
    (u : UserId) (ts : Timestamp) : lookupMarker (setMarker l u ts) u = some ts := by
  induction l with
  | nil => simp [setMarker, lookupMarker]
  | cons p rest ih =>
      obtain ⟨k, v⟩ := p
      simp only [setMarker]
      by_cases h : k = u
      · simp [h, lookupMarker]
      · simp only [if_neg h, lookupMarker]
        exact ih

theorem lookupMarker_setMarker_ne (l : List (UserId × Timestamp))
    (u u2 : UserId) (ts : Timestamp) (h : u2 ≠ u) :
    lookupMarker (setMarker l u ts) u2 = lookupMarker l u2 := by
  induction l with
  | nil =>
      simp only [setMarker, lookupMarker]
      rw [if_neg fun e => h e.symm]
  | cons p rest ih =>
      obtain ⟨k, v⟩ := p
      simp only [setMarker]
      by_cases hk : k = u
      · subst hk
        simp only [lookupMarker]
        rw [if_neg fun e => h e.symm, if_neg fun e => h e.symm]
      · simp only [if_neg hk, lookupMarker]
        by_cases hk2 : k = u2
        · simp [hk2]
        · rw [if_neg hk2, if_neg hk2]
          exact ih

theorem applyTAU_ignore_eq (r : Receipts) (ts : Timestamp) (u : UserId) :
    (r.applyTimestampAndUser ts u).ignore = r.ignore := by
  unfold Receipts.applyTimestampAndUser
  split
  · rfl
  · split
    · rfl
    · split <;> rfl

theorem applyTAU_mono (r : Receipts) (ts0 : Timestamp) (u0 u : UserId)
    (ts : Timestamp) (h : lookupMarker r.markers u = some ts) :
    ∃ ts2, lookupMarker (r.applyTimestampAndUser ts0 u0).markers u = some ts2 ∧
      ts ≤ ts2 := by
  unfold Receipts.applyTimestampAndUser
  split
  · exact ⟨ts, h, le_refl ts⟩
  · split
    · rename_i hnone
      by_cases hu : u = u0
      · subst hu; rw [h] at hnone; cases hnone
      · exact ⟨ts, by simpa [lookupMarker_setMarker_ne _ _ _ _ hu] using h,
          le_refl ts⟩
    · rename_i old hold
      split
      · rename_i hgt
        by_cases hu : u = u0
        · subst hu
          rw [h] at hold
          injection hold with hh
          subst hh
          exact ⟨ts0, by simp [lookupMarker_setMarker_self], le_of_lt hgt⟩
        · exact ⟨ts, by simpa [lookupMarker_setMarker_ne _ _ _ _ hu] using h,
            le_refl ts⟩
      · exact ⟨ts, h, le_refl ts⟩

theorem applyTAU_ignored_none (r : Receipts)
    (h : lookupMarker r.markers r.ignore = none) (ts : Timestamp) (u : UserId) :
    lookupMarker (r.applyTimestampAndUser ts u).markers r.ignore = none := by
  unfold Receipts.applyTimestampAndUser
  split
  · exact h
  · rename_i hne
    split
    · rw [lookupMarker_setMarker_ne _ _ _ _ fun e => hne e.symm]; exact h
    · split
      · rw [lookupMarker_setMarker_ne _ _ _ _ fun e => hne e.symm]; exact h
      · exact h

/-- Monotonicity survives any fold whose step is monotone on lookups. -/
theorem foldl_marker_mono {α : Type} (step : Receipts → α → Receipts)
    (hstep : ∀ r a u ts, lookupMarker r.markers u = some ts →
      ∃ ts2, lookupMarker (step r a).markers u = some ts2 ∧ ts ≤ ts2) :
    ∀ (l : List α) (r : Receipts) (u : UserId) (ts : Timestamp),
      lookupMarker r.markers u = some ts →
      ∃ ts2, lookupMarker (l.foldl step r).markers u = some ts2 ∧ ts ≤ ts2 := by
  intro l
  induction l with
  | nil => intro r u ts h; exact ⟨ts, h, le_refl ts⟩
  | cons a l ih =>
      intro r u ts h
      obtain ⟨ts1, h1, hle1⟩ := hstep r a u ts h
      obtain ⟨ts2, h2, hle2⟩ := ih (step r a) u ts1 h1
      exact ⟨ts2, h2, le_trans hle1 hle2⟩

theorem applyEvent_mono (r : Receipts) (ev : ReceiptEventContent)
    (u : UserId) (ts : Timestamp) (h : lookupMarker r.markers u = some ts) :
    ∃ ts2, lookupMarker (r.applyEvent ev).markers u = some ts2 ∧ ts ≤ ts2 := by
  unfold Receipts.applyEvent
  refine foldl_marker_mono _ ?_ ev.entries r u ts h
  intro r types u ts h
  match types with
  | none => exact ⟨ts, h, le_refl ts⟩
  | some userIds =>
      refine foldl_marker_mono _ ?_ userIds r u ts h
      intro r p u ts h
      match p with
      | (uid, none) => exact ⟨ts, h, le_refl ts⟩
      | (uid, some ts0) => exact applyTAU_mono r ts0 uid u ts h

/-- Any fold preserves a predicate its step preserves. -/
theorem foldl_preserve {α β : Type} (step : β → α → β) (P : β → Prop)
    (hstep : ∀ b a, P b → P (step b a)) :
    ∀ (l : List α) (b : β), P b → P (l.foldl step b) := by
  intro l
  induction l with
  | nil => intro b hb; exact hb
  | cons a l ih => intro b hb; exact ih (step b a) (hstep b a hb)

/-- The ignored-user invariant (ignore field constant, no marker for it)
survives one apply_event. -/
theorem applyEvent_ignored (ig : UserId) (r : Receipts)
    (h : r.ignore = ig ∧ lookupMarker r.markers ig = none)
    (ev : ReceiptEventContent) :
    (r.applyEvent ev).ignore = ig ∧
      lookupMarker (r.applyEvent ev).markers ig = none := by
  unfold Receipts.applyEvent
  refine foldl_preserve _
    (fun r => r.ignore = ig ∧ lookupMarker r.markers ig = none) ?_
    ev.entries r h
  intro r types hP
  match types with
  | none => exact hP
  | some userIds =>
      refine foldl_preserve _
        (fun r => r.ignore = ig ∧ lookupMarker r.markers ig = none) ?_
        userIds r hP
      intro r p hP
      match p with
      | (uid, none) => exact hP
      | (uid, some ts0) =>
          refine ⟨by rw [applyTAU_ignore_eq]; exact hP.1, ?_⟩
          have h2 := applyTAU_ignored_none r (by rw [hP.1]; exact hP.2) ts0 uid
          rw [hP.1] at h2
          exact h2

theorem lookupMarker_of_mem (l : List (UserId × Timestamp)) (k : UserId)
    (v : Timestamp) (h : (k, v) ∈ l) : ∃ w, lookupMarker l k = some w := by
  induction l with
  | nil => cases h
  | cons p rest ih =>
      obtain ⟨k2, v2⟩ := p
      rcases List.mem_cons.mp h with h | h
      · cases h
        exact ⟨v, by simp [lookupMarker]⟩
      · by_cases hk : k2 = k
        · exact ⟨v2, by simp [lookupMarker, hk]⟩
        · obtain ⟨w, hw⟩ := ih h
          exact ⟨w, by simpa [lookupMarker, hk] using hw⟩

/-- C10: markers are monotone non-decreasing under any receipt event (an
older incoming timestamp leaves the stored marker unchanged), and starting
from an empty index the ignored local user never acquires a marker and
never appears in the heap get_all returns. -/
theorem C10_receipts_monotone_ignore (ig : UserId) :
    (∀ (r : Receipts) (ev : ReceiptEventContent) (u : UserId) (ts : Timestamp),
        lookupMarker r.markers u = some ts →
        ∃ ts2, lookupMarker (r.applyEvent ev).markers u = some ts2 ∧
          ts ≤ ts2) ∧
    (∀ evs : List ReceiptEventContent,
        lookupMarker
          (evs.foldl Receipts.applyEvent (Receipts.new ig)).markers ig =
          none) ∧
    (∀ evs : List ReceiptEventContent,
        ∀ p ∈ (evs.foldl Receipts.applyEvent (Receipts.new ig)).getAll,
          p.userId ≠ ig) := by
  have key : ∀ evs : List ReceiptEventContent,
      (evs.foldl Receipts.applyEvent (Receipts.new ig)).ignore = ig ∧
        lookupMarker
          (evs.foldl Receipts.applyEvent (Receipts.new ig)).markers ig =
          none := by
    intro evs
    induction evs using List.reverseRecOn with
    | nil => exact ⟨rfl, by simp [Receipts.new, lookupMarker]⟩
    | append_singleton evs ev ih =>
        rw [List.foldl_append, List.foldl_cons, List.foldl_nil]
        exact applyEvent_ignored ig _ ih ev
  refine ⟨fun r ev => applyEvent_mono r ev, fun evs => (key evs).2, ?_⟩
  intro evs p hp hne
  obtain ⟨_, h1⟩ := key evs
  simp only [Receipts.getAll, List.mem_map] at hp
  obtain ⟨⟨k, v⟩, hmem, hpv⟩ := hp
  have hk : k = ig := by
    have hpk : p.userId = k := by rw [← hpv]
    rw [← hpk, hne]
  subst hk
  obtain ⟨w, hw⟩ := lookupMarker_of_mem _ _ _ hmem
  rw [h1] at hw
  cases hw

/-- Witness for C10: user "@a" keeps a marker at least 7 after a later
event with an older timestamp 3, and the ignored "@me" gets no marker. -/
theorem C10_receipts_monotone_ignore_witness :
    (∃ ts2, lookupMarker
        (((Receipts.new "@me").applyEvent
            ⟨[some [("@a", some 7)]]⟩).applyEvent
          ⟨[some [("@a", some 3)]]⟩).markers "@a" = some ts2 ∧
      (7 : Timestamp) ≤ ts2) ∧
    lookupMarker
      ([ReceiptEventContent.mk [some [("@me", some 9)]]].foldl
        Receipts.applyEvent (Receipts.new "@me")).markers "@me" = none :=
  ⟨(C10_receipts_monotone_ignore "@me").1
      ((Receipts.new "@me").applyEvent ⟨[some [("@a", some 7)]]⟩)
      ⟨[some [("@a", some 3)]]⟩ "@a" 7 (by decide),
    (C10_receipts_monotone_ignore "@me").2.1
      [ReceiptEventContent.mk [some [("@me", some 9)]]]⟩

/-! ### Helper lemmas for edit history (C3) -/

@[simp] theorem Message.edit_id (m : Message) (c : MessageType) :
    (m.edit c).id = m.id := by
  match m with
  | .mk i irt rid s b h sen rea rep rec_ => rfl

@[simp] theorem Message.edit_history (m : Message) (c : MessageType) :
    (m.edit c).history = m.history ++ [m.body] := by
  match m with
  | .mk i irt rid s b h sen rea rep rec_ => rfl

@[simp] theorem Message.edit_body (m : Message) (c : MessageType) :
    (m.edit c).body = c := by
  match m with
  | .mk i irt rid s b h sen rea rep rec_ => rfl

theorem applyEditScan_found (pre : List Message) (m : Message)
    (post : List Message) (c : MessageType)
    (hpre : ∀ p ∈ pre, p.id ≠ m.id) :
    applyEditScan (pre ++ m :: post) m.id c = some (pre ++ m.edit c :: post) := by
  induction pre with
  | nil => simp [applyEditScan]
  | cons p pre ih =>
      simp only [List.cons_append, applyEditScan, List.append_eq]
      rw [if_neg (hpre p (by simp))]
      rw [ih fun q hq => hpre q (by simp [hq])]
      rfl

theorem applyTimelineEvent_replacement (ms ms2 : List Message)
    (c : RoomMessageEvent) (tid : EventId) (content : MessageType) (d : Nat)
    (hrel : c.relatesTo = some (.replacement tid content))
    (hscan : applyEditScan ms tid content = some ms2) :
    Message.applyTimelineEvent ms (.roomMessage c) d = (ms2, .consumed) := by
  simp only [Message.applyTimelineEvent, hrel, hscan]

theorem foldl_edit_spec (cs : List MessageType) :
    ∀ m : Message,
      (cs.foldl Message.edit m).history =
        m.history ++ (m.body :: cs).dropLast ∧
      (cs.foldl Message.edit m).body = cs.getLastD m.body := by
  induction cs with
  | nil => intro m; simp
  | cons c cs ih =>
      intro m
      rw [List.foldl_cons]
      obtain ⟨h1, h2⟩ := ih (m.edit c)
      refine ⟨?_, ?_⟩
      · rw [h1]
        simp [List.dropLast_cons₂, List.append_assoc]
      · rw [h2, Message.edit_body, List.getLastD_cons]

/-- C3: folding N replacement events that target a message m sitting in
the list (no earlier message shares its id) edits m in place, leaving its
history extended, append-only, by exactly the N superseded bodies in
order, and its body equal to the last replacement's content. -/
theorem C3_edit_history (d : Nat) (pre post : List Message) (m : Message)
    (ps : List (RoomMessageEvent × MessageType))
    (hpre : ∀ p ∈ pre, p.id ≠ m.id)
    (hps : ∀ p ∈ ps, p.1.relatesTo = some (.replacement m.id p.2)) :
    ps.foldl (fun acc p =>
        (Message.applyTimelineEvent acc (.roomMessage p.1) d).1)
      (pre ++ m :: post) =
      pre ++ (ps.map Prod.snd).foldl Message.edit m :: post ∧
    ((ps.map Prod.snd).foldl Message.edit m).history =
      m.history ++ (m.body :: ps.map Prod.snd).dropLast ∧
    ((ps.map Prod.snd).foldl Message.edit m).body =
      (ps.map Prod.snd).getLastD m.body ∧
    ((ps.map Prod.snd).foldl Message.edit m).history.length =
      m.history.length + ps.length := by
  have hfold : ∀ (ps : List (RoomMessageEvent × MessageType)) (m : Message),
      (∀ p ∈ pre, p.id ≠ m.id) →
      (∀ p ∈ ps, p.1.relatesTo = some (.replacement m.id p.2)) →
      ps.foldl (fun acc p =>
          (Message.applyTimelineEvent acc (.roomMessage p.1) d).1)
        (pre ++ m :: post) =
        pre ++ (ps.map Prod.snd).foldl Message.edit m :: post := by
    intro ps
    induction ps with
    | nil => intro m _ _; simp
    | cons p ps ih =>
        intro m hpre2 hps2
        rw [List.foldl_cons,
          applyTimelineEvent_replacement (pre ++ m :: post)
            (pre ++ m.edit p.2 :: post) p.1 m.id p.2 d
            (hps2 p (by simp))
            (applyEditScan_found pre m post p.2 hpre2)]
        rw [ih (m.edit p.2) (by simpa using hpre2)
          (fun q hq => by
            rw [Message.edit_id]
            exact hps2 q (by simp [hq]))]
        simp
  refine ⟨hfold ps m hpre hps, (foldl_edit_spec _ m).1, (foldl_edit_spec _ m).2, ?_⟩
  rw [(foldl_edit_spec _ m).1]
  simp

/-- Witness for C3: two successive edits of a fresh message leave a
two-entry history [original, first edit] and the second edit as body. -/
theorem C3_edit_history_witness :
    [(RoomMessageEvent.mk "$e2" "!r" "@u" 2 .other
        (some (.replacement "$e1" (.text "b1"))), MessageType.text "b1"),
      (RoomMessageEvent.mk "$e3" "!r" "@u" 3 .other
        (some (.replacement "$e1" (.text "b2"))), MessageType.text "b2")].foldl
      (fun acc p =>
        (Message.applyTimelineEvent acc (.roomMessage p.1) 0).1)
      ([] ++ Message.mk "$e1" none "!r" 1 (.text "b0") []
          (Username.new "@u") [] [] [] :: []) =
    [] ++ ([MessageType.text "b1", MessageType.text "b2"].foldl Message.edit
      (Message.mk "$e1" none "!r" 1 (.text "b0") []
        (Username.new "@u") [] [] [])) :: [] :=
  (C3_edit_history 0 [] [] (Message.mk "$e1" none "!r" 1 (.text "b0") []
      (Username.new "@u") [] [] [])
    [(RoomMessageEvent.mk "$e2" "!r" "@u" 2 .other
        (some (.replacement "$e1" (.text "b1"))), MessageType.text "b1"),
      (RoomMessageEvent.mk "$e3" "!r" "@u" 3 .other
        (some (.replacement "$e1" (.text "b2"))), MessageType.text "b2")]
    (by simp)
    (by
      intro p hp
      rcases List.mem_cons.mp hp with h | hp2
      · subst h; simp [Message.id]
      · rcases List.mem_cons.mp hp2 with h | h
        · subst h; simp [Message.id]
        · cases h)).1

/-! ### Helper lemmas for reaction merging (C5) -/

/-- All events carried under key k by a reaction list. -/
def eventsFor (k : String) (l : List Reaction) : List ReactionEvent :=
  (l.filter fun r => r.body = k).flatMap (·.events)

theorem eventsFor_nil (k : String) : eventsFor k [] = [] := rfl

theorem eventsFor_cons (k : String) (r : Reaction) (l : List Reaction) :
    eventsFor k (r :: l) =
      (if r.body = k then r.events else []) ++ eventsFor k l := by
  simp only [eventsFor, List.filter_cons]
  split
  · rename_i h
    rw [if_pos (by simpa using h)]
    simp
  · rename_i h
    rw [if_neg (by simpa using h)]
    simp

theorem eventsFor_append (k : String) (l1 l2 : List Reaction) :
    eventsFor k (l1 ++ l2) = eventsFor k l1 ++ eventsFor k l2 := by
  simp [eventsFor, List.filter_append]

theorem eventsFor_eq_nil_of_not_mem (k : String) (l : List Reaction)
    (h : k ∉ l.map (·.body)) : eventsFor k l = [] := by
  induction l with
  | nil => rfl
  | cons r l ih =>
      rw [eventsFor_cons]
      rw [if_neg (by intro e; exact h (by simp [e]))]
      simpa using ih (by intro hm; exact h (by simp [hm]))

theorem mergeInto_not_added (r : Reaction) :
    ∀ acc : List Reaction, (∀ m ∈ acc, m.body ≠ r.body) →
      Reaction.mergeInto acc r = (acc, r, false) := by
  intro acc
  induction acc with
  | nil => intro _; rfl
  | cons m ms ih =>
      intro h
      simp only [Reaction.mergeInto]
      rw [if_neg (h m (by simp))]
      rw [ih fun q hq => h q (by simp [hq])]

theorem mergeInto_bodies (acc : List Reaction) :
    ∀ r : Reaction,
      ((Reaction.mergeInto acc r).1).map (·.body) = acc.map (·.body) := by
  induction acc with
  | nil => intro r; rfl
  | cons m ms ih =>
      intro r
      simp only [Reaction.mergeInto]
      split
      · have := ih { r with events := [] }
        simp only [List.map_cons]
        rw [show (Reaction.mergeInto ms { r with events := [] }).1.map (·.body) =
          ms.map (·.body) from this]
      · simp only [List.map_cons]
        rw [ih r]

theorem mergeInto_flag (acc : List Reaction) :
    ∀ r : Reaction,
      (Reaction.mergeInto acc r).2.2 = acc.any (fun m => m.body = r.body) := by
  induction acc with
  | nil => intro r; rfl
  | cons m ms ih =>
      intro r
      simp only [Reaction.mergeInto, List.any_cons]
      split
      · rename_i h
        rw [show (decide (m.body = r.body)) = true by simpa using h]
        simp
      · rename_i h
        rw [show (decide (m.body = r.body)) = false by simpa using h]
        rw [Bool.false_or]
        exact ih r

theorem mergeInto_eventsFor (r : Reaction) (k : String) :
    ∀ acc : List Reaction, (acc.map (·.body)).Nodup →
      r.body ∈ acc.map (·.body) →
      eventsFor k (Reaction.mergeInto acc r).1 =
        eventsFor k acc ++ (if r.body = k then r.events else []) := by
  intro acc
  induction acc with
  | nil => intro _ hmem; cases hmem
  | cons m ms ih =>
      intro hnd hmem
      simp only [Reaction.mergeInto]
      split
      · rename_i hb
        have hnotin : m.body ∉ ms.map (·.body) := by
          rw [List.map_cons, List.nodup_cons] at hnd
          exact hnd.1
        have hni : ∀ q ∈ ms,
            q.body ≠ ({ r with events := ([] : List ReactionEvent) }).body := by
          intro q hq e
          have e2 : q.body = r.body := e
          exact hnotin (by rw [hb, ← e2]; exact List.mem_map_of_mem _ hq)
        simp only [mergeInto_not_added _ ms hni]
        rw [eventsFor_cons, eventsFor_cons]
        by_cases hk : m.body = k
        · have hrk : r.body = k := by rw [← hb]; exact hk
          have hms : eventsFor k ms = [] :=
            eventsFor_eq_nil_of_not_mem k ms (by rw [← hk]; exact hnotin)
          rw [if_pos hrk]
          simp [hk, hms]
        · have hrk : ¬r.body = k := by rw [← hb]; exact hk
          rw [if_neg hrk]
          simp [hk]
      · rename_i hb
        have hmem2 : r.body ∈ ms.map (·.body) := by
          rw [List.map_cons] at hmem
          rcases List.mem_cons.mp hmem with h | h
          · exact absurd h.symm hb
          · exact h
        have hnd2 : (ms.map (·.body)).Nodup := by
          rw [List.map_cons, List.nodup_cons] at hnd
          exact hnd.2
        show eventsFor k (m :: (Reaction.mergeInto ms r).1) = _
        rw [eventsFor_cons, eventsFor_cons, ih hnd2 hmem2]
        simp [List.append_assoc]

/-- The fold inside Reaction::merge, from an arbitrary accumulator. -/
def mergeFold (acc l : List Reaction) : List Reaction :=
  l.foldl
    (fun merged r =>
      let (merged2, r2, added) := Reaction.mergeInto merged r
      if added then merged2 else merged2 ++ [r2])
    acc

theorem merge_eq_mergeFold (l : List Reaction) :
    Reaction.merge l = mergeFold [] l := rfl

theorem eventsFor_singleton (k : String) (r : Reaction) :
    eventsFor k [r] = if r.body = k then r.events else [] := by
  rw [show ([r] : List Reaction) = r :: [] from rfl, eventsFor_cons,
    eventsFor_nil, List.append_nil]

theorem mergeFold_spec (l : List Reaction) :
    ∀ acc : List Reaction, (acc.map (·.body)).Nodup →
      ((mergeFold acc l).map (·.body)).Nodup ∧
      (∀ k, k ∈ (mergeFold acc l).map (·.body) ↔
        k ∈ acc.map (·.body) ∨ k ∈ l.map (·.body)) ∧
      (∀ k, eventsFor k (mergeFold acc l) =
        eventsFor k acc ++ eventsFor k l) := by
  induction l with
  | nil =>
      intro acc hnd
      exact ⟨hnd, by simp [mergeFold], by simp [mergeFold, eventsFor_nil]⟩
  | cons r l ih =>
      intro acc hnd
      by_cases hadd : r.body ∈ acc.map (·.body)
      · rcases hmi : Reaction.mergeInto acc r with ⟨ms2, r2, added⟩
        have hbodies : ms2.map (·.body) = acc.map (·.body) := by
          have h2 := mergeInto_bodies acc r
          rw [hmi] at h2
          exact h2
        have haddT : added = true := by
          have h2 := mergeInto_flag acc r
          rw [hmi] at h2
          have h3 : added = acc.any fun m => decide (m.body = r.body) := h2
          rw [h3, List.any_eq_true]
          obtain ⟨m, hm, he⟩ := List.mem_map.mp hadd
          exact ⟨m, hm, by simp [he]⟩
        subst haddT
        have hstep : mergeFold acc (r :: l) = mergeFold ms2 l := by
          simp only [mergeFold, List.foldl_cons, hmi, if_true]
        rw [hstep]
        obtain ⟨ih1, ih2, ih3⟩ := ih ms2 (by rw [hbodies]; exact hnd)
        refine ⟨ih1, ?_, ?_⟩
        · intro k
          rw [ih2 k, hbodies, List.map_cons]
          constructor
          · rintro (h | h)
            · exact Or.inl h
            · exact Or.inr (List.mem_cons_of_mem _ h)
          · rintro (h | h)
            · exact Or.inl h
            · rcases List.mem_cons.mp h with h | h
              · exact Or.inl (h ▸ hadd)
              · exact Or.inr h
        · intro k
          have hev : eventsFor k ms2 =
              eventsFor k acc ++ (if r.body = k then r.events else []) := by
            have h2 := mergeInto_eventsFor r k acc hnd hadd
            rw [hmi] at h2
            exact h2
          
          rw [ih3 k, hev, eventsFor_cons, List.append_assoc]
      · have hni : ∀ m ∈ acc, m.body ≠ r.body := fun m hm e =>
          hadd (by rw [← e]; exact List.mem_map_of_mem _ hm)
        have hmi2 : Reaction.mergeInto acc r = (acc, r, false) :=
          mergeInto_not_added r acc hni
        have hstep : mergeFold acc (r :: l) = mergeFold (acc ++ [r]) l := by
          simp only [mergeFold, List.foldl_cons, hmi2, Bool.false_eq_true,
            if_false]
        rw [hstep]
        have hnd2 : (((acc ++ [r]).map (·.body))).Nodup := by
          rw [List.map_append]
          refine List.Nodup.append hnd (by simp) ?_
          intro a ha hb
          rw [List.mem_map] at hb
          obtain ⟨q, hq, he⟩ := hb
          rcases List.mem_singleton.mp hq with rfl
          exact hadd (he ▸ ha)
        obtain ⟨ih1, ih2, ih3⟩ := ih (acc ++ [r]) hnd2
        refine ⟨ih1, ?_, ?_⟩
        · intro k
          rw [ih2 k, List.map_append, List.map_cons]
          simp only [List.mem_append, List.mem_cons, List.map_cons,
            List.mem_singleton]
          tauto
        · intro k
          rw [ih3 k, eventsFor_append]
          simp [eventsFor_cons, eventsFor_nil, List.append_assoc]

/-- C5: merging any permutation of the reaction list [a, b, a, b, a]
(three single-event reactions under key a interleaved with two under key
b) yields exactly two Reactions, one per distinct key, whose event lists
are exactly the three a-events and the two b-events. -/
theorem C5_reaction_merge (ka kb : String) (hk : ka ≠ kb)
    (e1 e2 e3 e4 e5 : ReactionEvent) (l : List Reaction)
    (hperm : l.Perm
      [⟨ka, [e1]⟩, ⟨kb, [e2]⟩, ⟨ka, [e3]⟩, ⟨kb, [e4]⟩, ⟨ka, [e5]⟩]) :
    ∃ ra rb, (Reaction.merge l = [ra, rb] ∨ Reaction.merge l = [rb, ra]) ∧
      ra.body = ka ∧ rb.body = kb ∧
      ra.events.Perm [e1, e3, e5] ∧ rb.events.Perm [e2, e4] := by
  have hkk : ¬kb = ka := fun e => hk e.symm
  obtain ⟨hnd, hmem, hev⟩ := mergeFold_spec l [] (by simp)
  rw [← merge_eq_mergeFold] at hnd hmem hev
  have hmem2 : ∀ k, k ∈ (Reaction.merge l).map (·.body) ↔
      k ∈ l.map (·.body) := by
    intro k
    rw [hmem k]
    simp
  have hev2 : ∀ k, eventsFor k (Reaction.merge l) = eventsFor k l := by
    intro k
    rw [hev k, eventsFor_nil, List.nil_append]
  have hbodyperm : (l.map (·.body)).Perm [ka, kb, ka, kb, ka] := by
    have h2 := hperm.map (·.body)
    simpa using h2
  have hmem3 : ∀ k, k ∈ l.map (·.body) ↔ (k = ka ∨ k = kb) := by
    intro k
    rw [hbodyperm.mem_iff]
    simp
    tauto
  have hblperm : ((Reaction.merge l).map (·.body)).Perm [ka, kb] := by
    refine (List.perm_ext_iff_of_nodup hnd (by simp [hk])).mpr fun a => ?_
    rw [hmem2 a, hmem3 a]
    simp
  obtain ⟨x, y, hxy⟩ : ∃ x y, Reaction.merge l = [x, y] := by
    refine List.length_eq_two.mp ?_
    have h2 := hblperm.length_eq
    simpa using h2
  rw [hxy] at hblperm
  simp only [List.map_cons, List.map_nil] at hblperm
  have hxmem : x.body = ka ∨ x.body = kb := by
    have h2 := hblperm.mem_iff.mp (by simp : x.body ∈ [x.body, y.body])
    simpa using h2
  have hymem : y.body = ka ∨ y.body = kb := by
    have h2 := hblperm.mem_iff.mp (by simp : y.body ∈ [x.body, y.body])
    simpa using h2
  have hne : x.body ≠ y.body := by
    have h2 : ([x.body, y.body] : List String).Nodup := by
      rw [hxy] at hnd
      simpa using hnd
    simpa using (List.nodup_cons.mp h2).1
  have hevka : (eventsFor ka l).Perm [e1, e3, e5] := by
    have hfil := hperm.filter (fun r => r.body = ka)
    have hconc : (([⟨ka, [e1]⟩, ⟨kb, [e2]⟩, ⟨ka, [e3]⟩, ⟨kb, [e4]⟩,
        ⟨ka, [e5]⟩] : List Reaction)).filter (fun r => r.body = ka) =
        [⟨ka, [e1]⟩, ⟨ka, [e3]⟩, ⟨ka, [e5]⟩] := by
      simp [List.filter_cons, hkk]
    rw [hconc] at hfil
    have h2 := hfil.flatMap_right (·.events)
    simpa [eventsFor] using h2
  have hevkb : (eventsFor kb l).Perm [e2, e4] := by
    have hfil := hperm.filter (fun r => r.body = kb)
    have hconc : (([⟨ka, [e1]⟩, ⟨kb, [e2]⟩, ⟨ka, [e3]⟩, ⟨kb, [e4]⟩,
        ⟨ka, [e5]⟩] : List Reaction)).filter (fun r => r.body = kb) =
        [⟨kb, [e2]⟩, ⟨kb, [e4]⟩] := by
      simp [List.filter_cons, hk]
    rw [hconc] at hfil
    have h2 := hfil.flatMap_right (·.events)
    simpa [eventsFor] using h2
  rcases hxmem with hxka | hxkb
  · have hykb : y.body = kb := by
      rcases hymem with h | h
      · exact absurd (hxka.trans h.symm) hne
      · exact h
    have hx : eventsFor ka l = x.events := by
      rw [← hev2 ka, hxy, eventsFor_cons, eventsFor_cons, eventsFor_nil,
        if_pos hxka, if_neg (by rw [hykb]; exact hkk)]
      simp
    have hy : eventsFor kb l = y.events := by
      rw [← hev2 kb, hxy, eventsFor_cons, eventsFor_cons, eventsFor_nil,
        if_pos hykb, if_neg (by rw [hxka]; exact hk)]
      simp
    exact ⟨x, y, Or.inl hxy, hxka, hykb, hx ▸ hevka, hy ▸ hevkb⟩
  · have hyka : y.body = ka := by
      rcases hymem with h | h
      · exact h
      · exact absurd (hxkb.trans h.symm) hne
    have hx : eventsFor kb l = x.events := by
      rw [← hev2 kb, hxy, eventsFor_cons, eventsFor_cons, eventsFor_nil,
        if_pos hxkb, if_neg (by rw [hyka]; exact hk)]
      simp
    have hy : eventsFor ka l = y.events := by
      rw [← hev2 ka, hxy, eventsFor_cons, eventsFor_cons, eventsFor_nil,
        if_pos hyka, if_neg (by rw [hxkb]; exact hkk)]
      simp
    exact ⟨y, x, Or.inr hxy, hyka, hxkb, hy ▸ hevka, hx ▸ hevkb⟩

/-- Witness for C5 at a concrete shuffled reaction list. -/
theorem C5_reaction_merge_witness :
    ∃ ra rb,
      (Reaction.merge
          [⟨"y", [⟨"$r2", Username.new "@b1"⟩]⟩,
            ⟨"x", [⟨"$r1", Username.new "@a1"⟩]⟩,
            ⟨"x", [⟨"$r3", Username.new "@a2"⟩]⟩,
            ⟨"y", [⟨"$r4", Username.new "@b2"⟩]⟩,
            ⟨"x", [⟨"$r5", Username.new "@a3"⟩]⟩] = [ra, rb] ∨
        Reaction.merge
          [⟨"y", [⟨"$r2", Username.new "@b1"⟩]⟩,
            ⟨"x", [⟨"$r1", Username.new "@a1"⟩]⟩,
            ⟨"x", [⟨"$r3", Username.new "@a2"⟩]⟩,
            ⟨"y", [⟨"$r4", Username.new "@b2"⟩]⟩,
            ⟨"x", [⟨"$r5", Username.new "@a3"⟩]⟩] = [rb, ra]) ∧
      ra.body = "x" ∧ rb.body = "y" ∧
      ra.events.Perm [⟨"$r1", Username.new "@a1"⟩,
        ⟨"$r3", Username.new "@a2"⟩, ⟨"$r5", Username.new "@a3"⟩] ∧
      rb.events.Perm [⟨"$r2", Username.new "@b1"⟩,
        ⟨"$r4", Username.new "@b2"⟩] :=
  C5_reaction_merge "x" "y" (by decide)
    ⟨"$r1", Username.new "@a1"⟩ ⟨"$r2", Username.new "@b1"⟩
    ⟨"$r3", Username.new "@a2"⟩ ⟨"$r4", Username.new "@b2"⟩
    ⟨"$r5", Username.new "@a3"⟩
    [⟨"y", [⟨"$r2", Username.new "@b1"⟩]⟩,
      ⟨"x", [⟨"$r1", Username.new "@a1"⟩]⟩,
      ⟨"x", [⟨"$r3", Username.new "@a2"⟩]⟩,
      ⟨"y", [⟨"$r4", Username.new "@b2"⟩]⟩,
      ⟨"x", [⟨"$r5", Username.new "@a3"⟩]⟩]
    (by decide)

/-! ### Helper lemmas for the reply depth cap (C2) -/

theorem height_mk (i : EventId) (irt : Option EventId) (rid : RoomId)
    (s : Timestamp) (b : MessageType) (h : List MessageType) (sen : Username)
    (rea : List Reaction) (rep : List Message) (rec_ : List Username) :
    (Message.mk i irt rid s b h sen rea rep rec_).height = heightList rep := by
  rw [Message.height]

theorem heightList_nil : heightList [] = 0 := rfl

theorem heightList_cons (m : Message) (ms : List Message) :
    heightList (m :: ms) = max (1 + m.height) (heightList ms) := by
  rw [heightList]

theorem le_heightList_of_mem (m : Message) (ms : List Message)
    (h : m ∈ ms) : 1 + m.height ≤ heightList ms := by
  induction ms with
  | nil => cases h
  | cons q qs ih =>
      rw [heightList_cons]
      rcases List.mem_cons.mp h with h | h
      · subst h; omega
      · have := ih h; omega

theorem heightList_le (ms : List Message) (B : Nat)
    (h : ∀ m ∈ ms, 1 + m.height ≤ B) : heightList ms ≤ B := by
  induction ms with
  | nil => rw [heightList_nil]; omega
  | cons q qs ih =>
      rw [heightList_cons]
      have h1 := h q (by simp)
      have h2 := ih fun m hm => h m (by simp [hm])
      omega

theorem heightList_append_singleton (ms : List Message) (r : Message) :
    heightList (ms ++ [r]) = max (heightList ms) (1 + r.height) := by
  induction ms with
  | nil => simp [heightList_cons, heightList_nil]
  | cons q qs ih =>
      rw [List.cons_append, heightList_cons, heightList_cons, ih]
      omega

theorem pushReply_height (m r : Message) :
    (m.pushReply r).height = max m.height (1 + r.height) := by
  match m with
  | .mk i irt rid s b h sen rea rep rec_ =>
      rw [Message.pushReply, height_mk, height_mk, heightList_append_singleton]

theorem edit_height (m : Message) (c : MessageType) :
    (m.edit c).height = m.height := by
  match m with
  | .mk i irt rid s b h sen rea rep rec_ => rfl

theorem pushReaction_height (m : Message) (r : Reaction) :
    (m.pushReaction r).height = m.height := by
  match m with
  | .mk i irt rid s b h sen rea rep rec_ => rfl

theorem redactReactions_height (m : Message) (id : EventId) :
    (m.redactReactions id).height = m.height := by
  match m with
  | .mk i irt rid s b h sen rea rep rec_ => rfl

theorem tryFrom_height (ev : AnyTimelineEvent) (force : Bool) (r : Message)
    (h : Message.tryFrom ev force = some r) : r.height = 0 := by
  match ev with
  | .roomMessage c =>
      simp only [Message.tryFrom] at h
      split at h
      · split at h
        · cases h
        · split at h
          · injection h with h2
            subst h2
            rfl
          · cases h
        · injection h with h2
          subst h2
          rfl
      · cases h
  | .reaction c => cases h
  | .redaction c => cases h
  | .opaque_ i rid u t => cases h

theorem applyEditScan_heights (id : EventId) (c : MessageType) :
    ∀ ms ms2 : List Message, applyEditScan ms id c = some ms2 →
      ms2.map Message.height = ms.map Message.height := by
  intro ms
  induction ms with
  | nil => intro ms2 h; cases h
  | cons m rest ih =>
      intro ms2 h
      simp only [applyEditScan] at h
      split at h
      · injection h with h2
        subst h2
        simp [edit_height]
      · rcases hop : applyEditScan rest id c with _ | tail2
        · rw [hop] at h; cases h
        · rw [hop] at h
          injection h with h2
          subst h2
          simp [ih tail2 hop]

theorem applyReactionScan_heights (id : EventId) (r : Reaction) :
    ∀ ms ms2 : List Message, applyReactionScan ms id r = some ms2 →
      ms2.map Message.height = ms.map Message.height := by
  intro ms
  induction ms with
  | nil => intro ms2 h; cases h
  | cons m rest ih =>
      intro ms2 h
      simp only [applyReactionScan] at h
      split at h
      · injection h with h2
        subst h2
        simp [pushReaction_height]
      · rcases hop : applyReactionScan rest id r with _ | tail2
        · rw [hop] at h; cases h
        · rw [hop] at h
          injection h with h2
          subst h2
          simp [ih tail2 hop]

theorem applyReplyScan_mem (id : EventId) (r : Message) :
    ∀ ms ms2 : List Message, applyReplyScan ms id r = some ms2 →
      ∀ m2 ∈ ms2, m2 ∈ ms ∨ ∃ m ∈ ms, m2 = m.pushReply r := by
  intro ms
  induction ms with
  | nil => intro ms2 h; cases h
  | cons m rest ih =>
      intro ms2 h m2 hm2
      simp only [applyReplyScan] at h
      split at h
      · injection h with h2
        subst h2
        rcases List.mem_append.mp hm2 with h3 | h3
        · exact Or.inl (List.mem_cons_of_mem _ h3)
        · rcases List.mem_singleton.mp h3 with rfl
          exact Or.inr ⟨m, by simp, rfl⟩
      · rcases hop : applyReplyScan rest id r with _ | tail2
        · rw [hop] at h; cases h
        · rw [hop] at h
          injection h with h2
          subst h2
          rcases List.mem_cons.mp hm2 with h3 | h3
          · exact Or.inl (by simp [h3])
          · rcases ih tail2 hop m2 h3 with h4 | ⟨q, hq, he⟩
            · exact Or.inl (List.mem_cons_of_mem _ h4)
            · exact Or.inr ⟨q, List.mem_cons_of_mem _ hq, he⟩

theorem applyRedaction_heights (ms : List Message) (id : EventId) :
    ∀ m2 ∈ applyRedaction ms id, ∃ m ∈ ms, m2.height = m.height := by
  intro m2 hm2
  unfold applyRedaction at hm2
  obtain ⟨hm2', _⟩ := List.mem_filter.mp hm2
  obtain ⟨m, hm, he⟩ := List.mem_map.mp hm2'
  exact ⟨m, hm, by rw [← he, redactReactions_height]⟩

theorem sizeOf_list_pos (ms : List Message) : 1 ≤ sizeOf ms := by
  cases ms with
  | nil => simp
  | cons m rest => simp only [List.cons.sizeOf_spec]; omega

/-- The depth invariant, proved for apply_timeline_event and its reply
loop simultaneously by induction on the size of the message list: if
every message at list-depth d has reply height at most 4 - d, that stays
true after applying any event. -/
theorem depthInv_aux (n : Nat) :
    (∀ (ms : List Message) (ev : AnyTimelineEvent) (d : Nat),
      sizeOf ms ≤ n → (∀ m ∈ ms, d + m.height ≤ 4) →
      ∀ m ∈ (Message.applyTimelineEvent ms ev d).1, d + m.height ≤ 4) ∧
    (∀ (ms : List Message) (ev : AnyTimelineEvent) (d : Nat)
        (acc : MergeResult),
      sizeOf ms ≤ n → (∀ m ∈ ms, d + m.height ≤ 4) →
      ∀ m ∈ (Message.applyToReplies ms ev d acc).1, d + m.height ≤ 4) := by
  induction n with
  | zero =>
      refine ⟨?_, ?_⟩
      · intro ms ev d hsz
        exact absurd hsz (by have := sizeOf_list_pos ms; omega)
      · intro ms ev d acc hsz
        exact absurd hsz (by have := sizeOf_list_pos ms; omega)
  | succ n ih =>
      have hR : ∀ (ms : List Message) (ev : AnyTimelineEvent) (d : Nat)
          (acc : MergeResult),
          sizeOf ms ≤ n + 1 → (∀ m ∈ ms, d + m.height ≤ 4) →
          ∀ m ∈ (Message.applyToReplies ms ev d acc).1, d + m.height ≤ 4 := by
        intro ms ev d acc hsz hP
        match ms with
        | [] =>
            intro m hm
            simp only [Message.applyToReplies] at hm
            exact absurd hm (List.not_mem_nil m)
        | .mk i irt rid s b hh sen rea rep rec_ :: rest =>
            have hszrest : sizeOf rest ≤ n := by
              simp only [List.cons.sizeOf_spec, Message.mk.sizeOf_spec] at hsz
              omega
            have hszrep : sizeOf rep ≤ n := by
              simp only [List.cons.sizeOf_spec, Message.mk.sizeOf_spec] at hsz
              omega
            have hhead := hP _ (List.mem_cons_self _ _)
            rw [height_mk] at hhead
            simp only [Message.applyToReplies]
            split
            · rcases h2 : Message.applyToReplies rest ev d acc with ⟨ms2, acc2⟩
              simp only [h2]
              intro m hm
              rcases List.mem_cons.mp hm with h3 | h3
              · subst h3
                exact hP _ (by simp)
              · have h4 := ih.2 rest ev d acc hszrest
                  (fun q hq => hP q (by simp [hq]))
                rw [h2] at h4
                exact h4 m h3
            · rcases h2 : Message.applyTimelineEvent rep ev (d + 1) with
                ⟨rep2, result⟩
              rcases h3 : Message.applyToReplies rest ev d
                  (if result ≠ .missed then result else acc) with ⟨ms2, acc3⟩
              simp only [h2, h3]
              intro m hm
              rcases List.mem_cons.mp hm with h4 | h4
              · subst h4
                rw [height_mk]
                have hPrep : ∀ q ∈ rep, (d + 1) + q.height ≤ 4 := by
                  intro q hq
                  have := le_heightList_of_mem q rep hq
                  omega
                have hrep2 := ih.1 rep ev (d + 1) hszrep hPrep
                rw [h2] at hrep2
                have hle := heightList_le rep2 (4 - d)
                  (fun q hq => by have := hrep2 q hq; omega)
                omega
              · have h5 := ih.2 rest ev d
                  (if result ≠ .missed then result else acc) hszrest
                  (fun q hq => hP q (by simp [hq]))
                rw [h3] at h5
                exact h5 m h4
      refine ⟨?_, hR⟩
      intro ms ev d hsz hP
      match ev with
      | .roomMessage c =>
          rcases hrel : c.relatesTo with _ | rel
          · simp only [Message.applyTimelineEvent, hrel]
            exact hR ms _ d .ignored hsz hP
          · match rel with
            | .replacement tid content =>
                rcases hscan : applyEditScan ms tid content with _ | ms2
                · simp only [Message.applyTimelineEvent, hrel, hscan]
                  exact hR ms _ d .ignored hsz hP
                · simp only [Message.applyTimelineEvent, hrel, hscan]
                  intro m hm
                  have hmap := applyEditScan_heights tid content ms ms2 hscan
                  have hmem : m.height ∈ ms.map Message.height := by
                    rw [← hmap]
                    exact List.mem_map_of_mem _ hm
                  obtain ⟨q, hq, he⟩ := List.mem_map.mp hmem
                  have := hP q hq
                  omega
            | .reply pid =>
                rcases htf : Message.tryFrom (.roomMessage c) true with _ | reply
                · simp only [Message.applyTimelineEvent, hrel, htf]
                  exact hR ms _ d .missed hsz hP
                · simp only [Message.applyTimelineEvent, hrel, htf]
                  split
                  · split
                    · rename_i hany
                      intro m hm
                      rcases List.mem_append.mp hm with h3 | h3
                      · exact hP m h3
                      · rcases List.mem_singleton.mp h3 with rfl
                        rw [tryFrom_height _ _ _ htf]
                        obtain ⟨q, hq, _⟩ := List.any_eq_true.mp hany
                        have := hP q hq
                        omega
                    · exact hR ms _ d .missed hsz hP
                  · rename_i hd
                    rcases hscan : applyReplyScan ms pid reply with _ | ms2
                    · simp only [hscan]
                      exact hR ms _ d .missed hsz hP
                    · simp only [hscan]
                      intro m hm
                      rcases applyReplyScan_mem pid reply ms ms2 hscan m hm with
                        h3 | ⟨q, hq, he⟩
                      · exact hP m h3
                      · subst he
                        rw [pushReply_height, tryFrom_height _ _ _ htf]
                        have := hP q hq
                        have hd3 : d ≤ 3 := by omega
                        omega
      | .reaction c =>
          rcases hscan : applyReactionScan ms c.relatesId
              ⟨c.key, [ReactionEvent.new c.eventId c.sender]⟩ with _ | ms2
          · simp only [Message.applyTimelineEvent, hscan]
            exact hR ms _ d .ignored hsz hP
          · simp only [Message.applyTimelineEvent, hscan]
            intro m hm
            have hmap := applyReactionScan_heights _ _ ms ms2 hscan
            have hmem : m.height ∈ ms.map Message.height := by
              rw [← hmap]
              exact List.mem_map_of_mem _ hm
            obtain ⟨q, hq, he⟩ := List.mem_map.mp hmem
            have := hP q hq
            omega
      | .redaction c =>
          rcases hred : c.redacts with _ | rid
          · simp only [Message.applyTimelineEvent, hred]
            exact hR ms _ d .ignored hsz hP
          · simp only [Message.applyTimelineEvent, hred]
            refine hR (applyRedaction ms rid) _ d .ignored ?_ ?_
            · have := sizeOf_applyRedaction_le ms rid
              omega
            · intro m hm
              obtain ⟨q, hq, he⟩ := applyRedaction_heights ms rid m hm
              have := hP q hq
              omega
      | .opaque_ i2 rid2 u2 t2 =>
          simp only [Message.applyTimelineEvent]
          exact hR ms _ d .ignored hsz hP

/-- C2: the depth invariant (no message nested more than four reply
levels, measured as d + height ≤ 4 at list-depth d) is preserved by one
apply_timeline_event and by any sequence of them, and a reply whose found
parent sits at depth > 3 is attached as a sibling at the parent's level
(the list is extended by the new message; nothing is nested deeper). -/
theorem C2_reply_depth_cap (ms : List Message) (event : AnyTimelineEvent)
    (d : Nat) :
    ((∀ m ∈ ms, d + m.height ≤ 4) →
      ∀ m ∈ (Message.applyTimelineEvent ms event d).1, d + m.height ≤ 4) ∧
    (∀ evs : List AnyTimelineEvent, (∀ m ∈ ms, d + m.height ≤ 4) →
      ∀ m ∈ evs.foldl
          (fun acc ev => (Message.applyTimelineEvent acc ev d).1) ms,
        d + m.height ≤ 4) ∧
    (∀ (c : RoomMessageEvent) (pid : EventId) (reply : Message),
      event = .roomMessage c → c.relatesTo = some (.reply pid) → d > 3 →
      (∃ m ∈ ms, m.id = pid) → Message.tryFrom event true = some reply →
      Message.applyTimelineEvent ms event d = (ms ++ [reply], .consumed)) := by
  refine ⟨?_, ?_, ?_⟩
  · exact (depthInv_aux (sizeOf ms)).1 ms event d (le_refl _)
  · intro evs
    induction evs generalizing ms with
    | nil => intro hP m hm; exact hP m hm
    | cons ev evs ih =>
        intro hP
        rw [List.foldl_cons]
        exact ih _ ((depthInv_aux (sizeOf ms)).1 ms ev d (le_refl _) hP)
  · intro c pid reply hev hrel hd hex htf
    subst hev
    have hany : ms.any (fun m => m.id = pid) = true := by
      rw [List.any_eq_true]
      obtain ⟨m, hm, hid⟩ := hex
      exact ⟨m, hm, by simp [hid]⟩
    simp only [Message.applyTimelineEvent, hrel, htf, if_pos hd, hany,
      if_true]

/-- Witness for C2: a reply applied at depth 4 lands as a sibling. -/
theorem C2_reply_depth_cap_witness :
    Message.applyTimelineEvent
      [Message.mk "$p" none "!r" 1 (.text "hi") [] (Username.new "@u") [] [] []]
      (.roomMessage ⟨"$c", "!r", "@u", 2, .text "re", some (.reply "$p")⟩) 4 =
    ([Message.mk "$p" none "!r" 1 (.text "hi") [] (Username.new "@u") [] [] []] ++
      [Message.mk "$c" (some "$p") "!r" 2 (.text "re") []
        (Username.new "@u") [] [] []], .consumed) :=
  (C2_reply_depth_cap
    [Message.mk "$p" none "!r" 1 (.text "hi") [] (Username.new "@u") [] [] []]
    (.roomMessage ⟨"$c", "!r", "@u", 2, .text "re", some (.reply "$p")⟩)
    4).2.2 ⟨"$c", "!r", "@u", 2, .text "re", some (.reply "$p")⟩ "$p"
    (Message.mk "$c" (some "$p") "!r" 2 (.text "re") []
      (Username.new "@u") [] [] [])
    rfl rfl (by omega)
    ⟨Message.mk "$p" none "!r" 1 (.text "hi") [] (Username.new "@u") [] [] [],
      by simp, rfl⟩
    rfl

/-! ### Redaction cascade (C6) -/

mutual

/-- The spec's description of redacting rid inside one surviving message:
drop the matching reaction events, prune reactions left empty, recurse
into the replies. Stated from the spec's words, to be compared with
apply_timeline_event. -/
def redactSpecMsg (rid : EventId) : Message → Message
  | .mk i irt roomid s b h sen rea rep rec_ =>
      .mk i irt roomid s b h sen
        ((rea.map fun r => { r with events := r.events.filter (·.id ≠ rid) }).filter
          fun r => ¬r.events.isEmpty)
        (redactSpecList rid rep) rec_

/-- The spec's description of redacting rid in a message list: remove the
message whose id is rid, clean every other message. -/
def redactSpecList (rid : EventId) : List Message → List Message
  | [] => []
  | m :: ms =>
      if m.id = rid then redactSpecList rid ms
      else redactSpecMsg rid m :: redactSpecList rid ms

end

mutual

/-- Message::contains_id: this message or any reply has the given id. -/
def Message.containsId : Message → EventId → Bool
  | .mk i _ _ _ _ _ _ _ rep _, id => (i = id) || listContainsId rep id

/-- contains_id over a reply list. -/
def listContainsId : List Message → EventId → Bool
  | [], _ => false
  | m :: ms, id => m.containsId id || listContainsId ms id

end

mutual

/-- Does the subtree mention this event id, as a message id or as a
reaction event id? (Predicate used to state which messages a redaction
leaves untouched.) -/
def Message.mentions : Message → EventId → Bool
  | .mk i _ _ _ _ _ _ rea rep _, id =>
      (i = id) || rea.any (fun r => r.events.any (·.id = id)) ||
        listMentions rep id

/-- mentions over a reply list. -/
def listMentions : List Message → EventId → Bool
  | [], _ => false
  | m :: ms, id => m.mentions id || listMentions ms id

end

mutual

/-- Spec invariant 2: every reaction in the subtree has at least one
event. -/
def Message.wfReactions : Message → Bool
  | .mk _ _ _ _ _ _ _ rea rep _ =>
      rea.all (fun r => ¬r.events.isEmpty) && listWfReactions rep

/-- wfReactions over a reply list. -/
def listWfReactions : List Message → Bool
  | [] => true
  | m :: ms => m.wfReactions && listWfReactions ms

end

/-- Only the reply list replaced, everything else kept: the shape
applyToReplies gives each surviving message when the event is a
redaction. -/
def redactRepliesOnly (rid : EventId) : Message → Message
  | .mk i irt roomid s b h sen rea rep rec_ =>
      .mk i irt roomid s b h sen rea (redactSpecList rid rep) rec_

theorem redactReactions_id (m : Message) (rid : EventId) :
    (m.redactReactions rid).id = m.id := by
  match m with
  | .mk i irt roomid s b h sen rea rep rec_ => rfl

theorem applyRedaction_then_replies (rid : EventId) :
    ∀ ms : List Message,
      (applyRedaction ms rid).map (redactRepliesOnly rid) =
        redactSpecList rid ms := by
  intro ms
  induction ms with
  | nil => rfl
  | cons m rest ih =>
      by_cases hid : m.id = rid
      · have h1 : applyRedaction (m :: rest) rid = applyRedaction rest rid := by
          simp only [applyRedaction, List.map_cons, List.filter_cons]
          rw [if_neg (by simp [redactReactions_id, hid])]
        rw [h1, ih]
        simp only [redactSpecList]
        rw [if_pos hid]
      · have h1 : applyRedaction (m :: rest) rid =
            m.redactReactions rid :: applyRedaction rest rid := by
          simp only [applyRedaction, List.map_cons, List.filter_cons]
          rw [if_pos (by simp [redactReactions_id, hid])]
        rw [h1, List.map_cons, ih]
        simp only [redactSpecList]
        rw [if_neg hid]
        congr 1
        match m with
        | .mk i irt roomid s b h sen rea rep rec_ => rfl

/-- apply_timeline_event on a redaction event computes exactly the spec's
redaction cascade and reports Ignored; proved together with its reply
loop by induction on the size of the list. -/
theorem redact_aux (n : Nat) :
    (∀ (ms : List Message) (c : RedactionTimelineEvent) (rid : EventId)
        (d : Nat), c.redacts = some rid → sizeOf ms ≤ n →
      Message.applyTimelineEvent ms (.redaction c) d =
        (redactSpecList rid ms, .ignored)) ∧
    (∀ (ms : List Message) (c : RedactionTimelineEvent) (rid : EventId)
        (d : Nat), c.redacts = some rid → sizeOf ms ≤ n →
      Message.applyToReplies ms (.redaction c) d .ignored =
        (ms.map (redactRepliesOnly rid), .ignored)) := by
  induction n with
  | zero =>
      refine ⟨?_, ?_⟩
      · intro ms c rid d hc hsz
        exact absurd hsz (by have := sizeOf_list_pos ms; omega)
      · intro ms c rid d hc hsz
        exact absurd hsz (by have := sizeOf_list_pos ms; omega)
  | succ n ih =>
      have hR : ∀ (ms : List Message) (c : RedactionTimelineEvent)
          (rid : EventId) (d : Nat), c.redacts = some rid →
          sizeOf ms ≤ n + 1 →
          Message.applyToReplies ms (.redaction c) d .ignored =
            (ms.map (redactRepliesOnly rid), .ignored) := by
        intro ms c rid d hc hsz
        match ms with
        | [] => simp [Message.applyToReplies]
        | .mk i irt roomid s b hh sen rea rep rec_ :: rest =>
            have hszrest : sizeOf rest ≤ n := by
              simp only [List.cons.sizeOf_spec, Message.mk.sizeOf_spec] at hsz
              omega
            have hszrep : sizeOf rep ≤ n := by
              simp only [List.cons.sizeOf_spec, Message.mk.sizeOf_spec] at hsz
              omega
            simp only [Message.applyToReplies]
            split
            · rename_i hrep
              have hrepnil : rep = [] := by
                cases rep with
                | nil => rfl
                | cons a l => cases hrep
              subst hrepnil
              simp only [ih.2 rest c rid d hc hszrest]
              simp [redactRepliesOnly, redactSpecList]
            · simp only [ih.1 rep c rid (d + 1) hc hszrep]
              simp only [ite_self]
              simp only [ih.2 rest c rid d hc hszrest]
              simp [redactRepliesOnly]
      refine ⟨?_, hR⟩
      intro ms c rid d hc hsz
      simp only [Message.applyTimelineEvent, hc]
      rw [hR (applyRedaction ms rid) c rid d hc
        (le_trans (sizeOf_applyRedaction_le ms rid) hsz)]
      rw [applyRedaction_then_replies]

theorem listContainsId_eq_false (rid : EventId) (l : List Message)
    (h : ∀ m ∈ l, m.containsId rid = false) :
    listContainsId l rid = false := by
  induction l with
  | nil => rfl
  | cons m ms ih =>
      rw [listContainsId, h m (by simp), ih fun q hq => h q (by simp [hq])]
      rfl

theorem redactSpec_no_id (rid : EventId) (n : Nat) :
    ∀ ms : List Message, sizeOf ms ≤ n →
      ∀ m2 ∈ redactSpecList rid ms, m2.containsId rid = false := by
  induction n with
  | zero =>
      intro ms hsz
      exact absurd hsz (by have := sizeOf_list_pos ms; omega)
  | succ n ih =>
      intro ms hsz
      match ms with
      | [] => intro m2 hm2; cases hm2
      | .mk i irt roomid s b hh sen rea rep rec_ :: rest =>
          have hszrest : sizeOf rest ≤ n := by
            simp only [List.cons.sizeOf_spec, Message.mk.sizeOf_spec] at hsz
            omega
          have hszrep : sizeOf rep ≤ n := by
            simp only [List.cons.sizeOf_spec, Message.mk.sizeOf_spec] at hsz
            omega
          intro m2 hm2
          simp only [redactSpecList] at hm2
          split at hm2
          · exact ih rest hszrest m2 hm2
          · rename_i hid
            rcases List.mem_cons.mp hm2 with h2 | h2
            · subst h2
              simp only [redactSpecMsg, Message.containsId]
              rw [listContainsId_eq_false rid _ (ih rep hszrep)]
              simp only [Message.id] at hid
              simp [hid]
            · exact ih rest hszrest m2 h2

theorem sizeOf_msg_pos (m : Message) : 1 ≤ sizeOf m := by
  match m with
  | .mk i irt roomid s b h sen rea rep rec_ =>
      simp only [Message.mk.sizeOf_spec]
      omega

/-- A message whose subtree neither carries the redacted id nor an empty
reaction is left exactly as it was by the spec's redaction cascade. -/
theorem redactSpec_untouched (rid : EventId) (n : Nat) :
    (∀ m : Message, sizeOf m ≤ n → m.wfReactions = true →
      m.mentions rid = false → redactSpecMsg rid m = m) ∧
    (∀ ms : List Message, sizeOf ms ≤ n → listWfReactions ms = true →
      listMentions ms rid = false → redactSpecList rid ms = ms) := by
  induction n with
  | zero =>
      refine ⟨?_, ?_⟩
      · intro m hsz
        exact absurd hsz (by have := sizeOf_msg_pos m; omega)
      · intro ms hsz
        exact absurd hsz (by have := sizeOf_list_pos ms; omega)
  | succ n ih =>
      refine ⟨?_, ?_⟩
      · intro m hsz hwf hmen
        match m with
        | .mk i irt roomid s b hh sen rea rep rec_ =>
            have hszrep : sizeOf rep ≤ n := by
              simp only [Message.mk.sizeOf_spec] at hsz
              omega
            rw [Message.wfReactions, Bool.and_eq_true] at hwf
            obtain ⟨hall, hwfrep⟩ := hwf
            rw [Message.mentions, Bool.or_eq_false_iff, Bool.or_eq_false_iff]
              at hmen
            obtain ⟨⟨hid, hany⟩, hmenrep⟩ := hmen
            rw [List.any_eq_false] at hany
            rw [List.all_eq_true] at hall
            simp only [redactSpecMsg]
            rw [ih.2 rep hszrep hwfrep hmenrep]
            have hmap : rea.map (fun r =>
                { r with events := r.events.filter (·.id ≠ rid) }) = rea := by
              have h6 : rea.map (fun r =>
                  { r with events := r.events.filter (·.id ≠ rid) }) =
                  rea.map id := by
                apply List.map_congr_left
                intro r hr
                have hev : r.events.filter (·.id ≠ rid) = r.events := by
                  rw [List.filter_eq_self]
                  intro e he
                  have h2 := hany r hr
                  have h3 := Bool.eq_false_iff.mpr h2
                  rw [List.any_eq_false] at h3
                  simpa using h3 e he
                simp only [hev, id]
              rw [h6, List.map_id]
            rw [hmap, List.filter_eq_self.mpr (fun r hr => hall r hr)]
      · intro ms hsz hwf hmen
        match ms with
        | [] => rfl
        | m :: rest =>
            have hszrest : sizeOf rest ≤ n := by
              have := sizeOf_msg_pos m
              simp only [List.cons.sizeOf_spec] at hsz
              omega
            have hszm : sizeOf m ≤ n := by
              have := sizeOf_list_pos rest
              simp only [List.cons.sizeOf_spec] at hsz
              omega
            rw [listWfReactions, Bool.and_eq_true] at hwf
            rw [listMentions, Bool.or_eq_false_iff] at hmen
            have hidne : ¬m.id = rid := by
              match m with
              | .mk i irt roomid s b hh sen rea rep rec_ =>
                  have h2 := hmen.1
                  rw [Message.mentions, Bool.or_eq_false_iff,
                    Bool.or_eq_false_iff] at h2
                  simpa [Message.id] using h2.1.1
            simp only [redactSpecList]
            rw [if_neg hidne, ih.1 m hszm hwf.1 hmen.1,
              ih.2 rest hszrest hwf.2 hmen.2]

theorem isEmpty_filter_any (q : ReactionEvent → Bool)
    (es : List ReactionEvent) : (es.filter q).isEmpty = !es.any q := by
  induction es with
  | nil => rfl
  | cons e es ih =>
      simp only [List.filter_cons, List.any_cons]
      cases hq : q e
      · simpa using ih
      · simp

/-- The spec cascade keeps, for each message, exactly the reactions that
still own an event other than the redacted one (pruned iff it was the
last event). -/
theorem redactSpecMsg_reaction_count (rid : EventId) (m : Message) :
    (redactSpecMsg rid m).reactions.length =
      (m.reactions.filter fun r => r.events.any (·.id ≠ rid)).length := by
  match m with
  | .mk i irt roomid s b h sen rea rep rec_ =>
      simp only [redactSpecMsg, Message.reactions]
      rw [List.filter_map, List.length_map]
      congr 1
      apply List.filter_congr
      intro r hr
      have h2 := isEmpty_filter_any (fun e => decide (e.id ≠ rid)) r.events
      cases hany : r.events.any (fun e => decide (e.id ≠ rid))
      · have h3 : ∀ x ∈ r.events, x.id = rid := by
          rw [List.any_eq_false] at hany
          intro x hx
          have h4 := hany x hx
          simpa using h4
        simp [Function.comp, h2, hany]
        exact h3
      · have h3 : ∃ x ∈ r.events, ¬x.id = rid := by
          rw [List.any_eq_true] at hany
          obtain ⟨x, hx, hxx⟩ := hany
          exact ⟨x, hx, by simpa using hxx⟩
        simp [Function.comp, h2, hany]
        exact h3

/-- C6: applying a redaction never yields Missed; the resulting tree is
exactly the spec's cascade: the message with the redacted id is removed
everywhere (no surviving message contains that id), a message whose
subtree does not carry the id is untouched, and per message exactly those
reactions survive that still have an event other than the redacted one
(a Reaction is pruned iff the redacted event was its last). -/
theorem C6_redaction_cascade (ms : List Message)
    (c : RedactionTimelineEvent) (rid : EventId) (d : Nat)
    (hc : c.redacts = some rid) :
    (Message.applyTimelineEvent ms (.redaction c) d).2 ≠ .missed ∧
    (Message.applyTimelineEvent ms (.redaction c) d).1 =
      redactSpecList rid ms ∧
    (∀ m2 ∈ (Message.applyTimelineEvent ms (.redaction c) d).1,
      m2.containsId rid = false) ∧
    (∀ m ∈ ms, m.wfReactions = true → m.mentions rid = false →
      redactSpecMsg rid m = m) ∧
    (∀ m ∈ ms, (redactSpecMsg rid m).reactions.length =
      (m.reactions.filter fun r => r.events.any (·.id ≠ rid)).length) := by
  have heq := (redact_aux (sizeOf ms)).1 ms c rid d hc (le_refl _)
  refine ⟨by rw [heq]; simp, by rw [heq], ?_, ?_, ?_⟩
  · simp only [heq]
    exact redactSpec_no_id rid (sizeOf ms) ms (le_refl _)
  · intro m _ hwf hmen
    exact (redactSpec_untouched rid (sizeOf m)).1 m (le_refl _) hwf hmen
  · intro m _
    exact redactSpecMsg_reaction_count rid m

/-- Witness for C6: redacting one of two reaction events on a message
leaves the spec cascade's result and no Missed. -/
theorem C6_redaction_cascade_witness :
    (Message.applyTimelineEvent
      [Message.mk "$m" none "!r" 1 (.text "t") [] (Username.new "@u")
        [⟨"+1", [⟨"$ra", Username.new "@a"⟩, ⟨"$rb", Username.new "@b"⟩]⟩]
        [] []]
      (.redaction ⟨"$red", "!r", "@u", 5, some "$ra"⟩) 0).2 ≠ .missed ∧
    (Message.applyTimelineEvent
      [Message.mk "$m" none "!r" 1 (.text "t") [] (Username.new "@u")
        [⟨"+1", [⟨"$ra", Username.new "@a"⟩, ⟨"$rb", Username.new "@b"⟩]⟩]
        [] []]
      (.redaction ⟨"$red", "!r", "@u", 5, some "$ra"⟩) 0).1 =
      redactSpecList "$ra"
        [Message.mk "$m" none "!r" 1 (.text "t") [] (Username.new "@u")
          [⟨"+1", [⟨"$ra", Username.new "@a"⟩, ⟨"$rb", Username.new "@b"⟩]⟩]
          [] []] :=
  ⟨(C6_redaction_cascade
      [Message.mk "$m" none "!r" 1 (.text "t") [] (Username.new "@u")
        [⟨"+1", [⟨"$ra", Username.new "@a"⟩, ⟨"$rb", Username.new "@b"⟩]⟩]
        [] []]
      ⟨"$red", "!r", "@u", 5, some "$ra"⟩ "$ra" 0 rfl).1,
    (C6_redaction_cascade
      [Message.mk "$m" none "!r" 1 (.text "t") [] (Username.new "@u")
        [⟨"+1", [⟨"$ra", Username.new "@a"⟩, ⟨"$rb", Username.new "@b"⟩]⟩]
        [] []]
      ⟨"$red", "!r", "@u", 5, some "$ra"⟩ "$ra" 0 rfl).2.1⟩

/-! ### Receipt fan-out (C1) -/

/-- Append receipts for the given users onto a message. -/
def Message.addReceipts (m : Message) (us : List UserId) : Message :=
  match m with
  | .mk i irt rid s b h sen rea rep rec_ =>
      .mk i irt rid s b h sen rea rep (rec_ ++ us.map Username.new)

/-- What apply_receipts actually does on a flat list: walking bottom-up,
a user's receipt lands on the bottom-most message whose sent time is
STRICTLY below the user's marker; a marker at or below every sent time
lands nowhere. Stated against the heap as a whole: each message receives
exactly the receipts that beat its sent time but no later message's. -/
def headPred (m : Message) (rest : List Message) : Receipt → Bool :=
  fun r2 => decide (m.sent < r2.timestamp) &&
    rest.all fun m2 => !decide (m2.sent < r2.timestamp)

def flatReceipts (heap : List Receipt) : List Message → List Message
  | [] => []
  | m :: rest =>
      m.addReceipts ((heap.filter (headPred m rest)).map (·.userId))
        :: flatReceipts heap rest

theorem addReceipts_nil (m : Message) : m.addReceipts [] = m := by
  match m with
  | .mk i irt rid s b h sen rea rep rec_ =>
      simp [Message.addReceipts]

theorem pushReceipt_sent (m : Message) (u : UserId) :
    (m.pushReceipt u).sent = m.sent := by
  match m with
  | .mk i irt rid s b h sen rea rep rec_ => rfl

theorem addReceipts_pushReceipt (m : Message) (u : UserId)
    (us : List UserId) :
    (m.pushReceipt u).addReceipts us = m.addReceipts (u :: us) := by
  match m with
  | .mk i irt rid s b h sen rea rep rec_ =>
      simp [Message.pushReceipt, Message.addReceipts]

/-- The pop loop of apply_receipts on a heap sorted in pop order: it
takes exactly the receipts whose timestamp is strictly above the
message's sent time and leaves the rest. -/
theorem attachReceipts_sorted :
    ∀ (heap : List Receipt) (m : Message),
      List.Pairwise (fun a b => b.timestamp ≤ a.timestamp) heap →
      attachReceipts m heap =
        (m.addReceipts
          ((heap.filter fun r => decide (m.sent < r.timestamp)).map
            (·.userId)),
          heap.filter fun r => !decide (m.sent < r.timestamp)) := by
  intro heap
  induction heap with
  | nil =>
      intro m _
      simp [attachReceipts, addReceipts_nil]
  | cons r rest ih =>
      intro m hsort
      obtain ⟨hall, hsort2⟩ := List.pairwise_cons.mp hsort
      rw [attachReceipts]
      split
      · rename_i hgt
        rw [ih (m.pushReceipt r.userId) hsort2]
        rw [List.filter_cons_of_pos (by simpa using hgt),
          List.filter_cons_of_neg (by simpa using hgt)]
        simp only [List.map_cons, pushReceipt_sent, addReceipts_pushReceipt]
      · rename_i hgt
        have hnone : ∀ x ∈ rest, ¬m.sent < x.timestamp := by
          intro x hx h2
          exact hgt (lt_of_lt_of_le h2 (hall x hx))
        rw [List.filter_cons_of_neg (by simpa using hgt),
          List.filter_cons_of_pos (by simpa using hgt)]
        rw [List.filter_eq_nil_iff.mpr (by intro x hx; simpa using hnone x hx),
          List.filter_eq_self.mpr (by intro x hx; simpa using hnone x hx)]
        simp [addReceipts_nil]

/-- apply_receipts on a flat message list (no replies) with the heap in
pop order: the returned messages are flatReceipts, and the returned heap
keeps exactly the receipts that beat no message's sent time. -/
theorem applyReceiptsAux_flat (og : List Receipt) :
    ∀ (ms : List Message) (heap : List Receipt),
      (∀ m ∈ ms, m.replies = []) →
      List.Pairwise (fun a b => b.timestamp ≤ a.timestamp) heap →
      Message.applyReceiptsAux og ms heap =
        (flatReceipts heap ms,
          heap.filter fun r =>
            ms.all fun m => !decide (m.sent < r.timestamp)) := by
  intro ms
  induction ms with
  | nil =>
      intro heap _ _
      simp only [Message.applyReceiptsAux, flatReceipts]
      rw [List.filter_eq_self.mpr (by intro x hx; simp)]
  | cons m rest ih =>
      intro heap hflat hsort
      obtain ⟨i, irt, rid, s, b, h, sen, rea, rep, rec_⟩ := m
      have hrep : rep = [] := by
        have h2 := hflat _ (List.mem_cons_self _ _)
        simpa [Message.replies] using h2
      subst hrep
      simp only [Message.applyReceiptsAux]
      rw [ih heap (fun q hq => hflat q (by simp [hq])) hsort]
      simp only [List.isEmpty_nil, if_true]
      rw [attachReceipts_sorted _ _ (List.Pairwise.filter _ hsort)]
      rw [List.filter_filter, List.filter_filter]
      simp only [flatReceipts, List.all_cons]
      unfold headPred
      rfl

theorem addReceipts_receipts (m : Message) (us : List UserId) :
    (m.addReceipts us).receipts = m.receipts ++ us.map Username.new := by
  match m with
  | .mk i irt rid s b h sen rea rep rec_ => rfl

/-- Each heap user lands on exactly one flat message: the bottom-most one
whose sent time is strictly below the marker; a marker at or below every
sent time lands nowhere. -/
theorem flatReceipts_count (r : Receipt) :
    ∀ (ms : List Message) (heap : List Receipt),
      r ∈ heap → ((heap.map (·.userId))).Nodup →
      (∀ m ∈ ms, m.receipts = []) →
      (flatReceipts heap ms).countP
        (fun m => decide (Username.new r.userId ∈ m.receipts)) =
        if ∃ m ∈ ms, m.sent < r.timestamp then 1 else 0 := by
  intro ms
  induction ms with
  | nil =>
      intro heap _ _ _
      simp [flatReceipts]
  | cons m rest ih =>
      intro heap hr hnd hempty
      have hchar : Username.new r.userId ∈
          (m.addReceipts ((heap.filter (headPred m rest)).map
            (·.userId))).receipts ↔
          headPred m rest r = true := by
        rw [addReceipts_receipts, hempty m (by simp), List.nil_append]
        constructor
        · intro hmem
          rw [List.mem_map] at hmem
          obtain ⟨u, hu, hue⟩ := hmem
          rw [List.mem_map] at hu
          obtain ⟨r2, hr2, hr2u⟩ := hu
          have hid : r2.userId = r.userId := by
            rw [hr2u]
            simp only [Username.new, Username.mk.injEq] at hue
            exact hue.1
          have h5 : r2 = r :=
            List.inj_on_of_nodup_map hnd (List.mem_of_mem_filter hr2) hr hid
          rw [← h5]
          exact (List.mem_filter.mp hr2).2
        · intro hpred
          exact List.mem_map.mpr ⟨r.userId,
            List.mem_map.mpr ⟨r, List.mem_filter.mpr ⟨hr, hpred⟩, rfl⟩, rfl⟩
      simp only [flatReceipts, List.countP_cons]
      rw [ih heap hr hnd (fun q hq => hempty q (by simp [hq]))]
      by_cases hrest : ∃ m2 ∈ rest, m2.sent < r.timestamp
      · have hexists : ∃ m2 ∈ m :: rest, m2.sent < r.timestamp := by
          obtain ⟨m2, hm2, h3⟩ := hrest
          exact ⟨m2, by simp [hm2], h3⟩
        rw [if_pos hrest, if_pos hexists]
        have hpredf : headPred m rest r = false := by
          obtain ⟨m2, hm2, h3⟩ := hrest
          apply Bool.eq_false_iff.mpr
          intro hTrue
          simp only [headPred, Bool.and_eq_true] at hTrue
          have h4 := List.all_eq_true.mp hTrue.2 m2 hm2
          simp [h3] at h4
        have hno : ¬Username.new r.userId ∈
            (m.addReceipts ((heap.filter (headPred m rest)).map
              (·.userId))).receipts := by
          intro h2
          have h3 := hchar.mp h2
          rw [hpredf] at h3
          cases h3
        rw [if_neg (by simpa using hno)]
      · rw [if_neg hrest]
        have halltrue : (rest.all fun m2 => !decide (m2.sent < r.timestamp)) =
            true := by
          rw [List.all_eq_true]
          intro m2 hm2
          simp only [Bool.not_eq_eq_eq_not, Bool.not_true,
            decide_eq_false_iff_not]
          exact fun hlt => hrest ⟨m2, hm2, hlt⟩
        by_cases hm : m.sent < r.timestamp
        · rw [if_pos (⟨m, by simp, hm⟩ : ∃ m2 ∈ m :: rest,
            m2.sent < r.timestamp)]
          have hpredt : headPred m rest r = true := by
            simp only [headPred, Bool.and_eq_true]
            exact ⟨by simpa using hm, halltrue⟩
          rw [if_pos (by simpa using hchar.mpr hpredt)]
        · have hnex : ¬∃ m2 ∈ m :: rest, m2.sent < r.timestamp := by
            rintro ⟨m2, hm2, h3⟩
            rcases List.mem_cons.mp hm2 with h4 | h4
            · subst h4; exact hm h3
            · exact hrest ⟨m2, h4, h3⟩
          rw [if_neg hnex]
          have hpredf : headPred m rest r = false := by
            apply Bool.eq_false_iff.mpr
            intro hTrue
            simp only [headPred, Bool.and_eq_true] at hTrue
            exact hm (by simpa using hTrue.1)
          have hno : ¬Username.new r.userId ∈
              (m.addReceipts ((heap.filter (headPred m rest)).map
                (·.userId))).receipts := by
            intro h2
            have h3 := hchar.mp h2
            rw [hpredf] at h3
            cases h3
          rw [if_neg (by simpa using hno)]

/-- What apply_receipts does on a whole message tree: every level list is
processed exactly like a flat list against its own pool of receipts, and
each message's reply chain is first processed against a fresh copy of
`og`, the heap as it stood on entry (Rust clones og_heap for every
chain). -/
def levelSpec (og : List Receipt) : List Receipt → List Message → List Message
  | _, [] => []
  | heap, .mk i irt rid s b h sen rea rep rec_ :: rest =>
      ((Message.mk i irt rid s b h sen rea (levelSpec og og rep)
          rec_).addReceipts
        ((heap.filter
          (headPred
            (Message.mk i irt rid s b h sen rea (levelSpec og og rep) rec_)
            rest)).map (·.userId)))
        :: levelSpec og heap rest
termination_by _ ms => sizeOf ms
decreasing_by
  all_goals simp only [List.cons.sizeOf_spec, Message.mk.sizeOf_spec]
  all_goals omega

/-- apply_receipts on an arbitrary message tree, with the entry heap og
and the threaded heap both in pop order: the returned messages are
levelSpec — each level handled like a flat list, each reply chain against
a fresh copy of og — and the returned heap keeps exactly the receipts
that beat no top-level message's sent time. -/
theorem applyReceiptsAux_tree (og : List Receipt)
    (hog : List.Pairwise (fun a b => b.timestamp ≤ a.timestamp) og)
    (n : Nat) :
    ∀ (ms : List Message) (heap : List Receipt), sizeOf ms ≤ n →
      List.Pairwise (fun a b => b.timestamp ≤ a.timestamp) heap →
      Message.applyReceiptsAux og ms heap =
        (levelSpec og heap ms,
          heap.filter fun r =>
            ms.all fun m => !decide (m.sent < r.timestamp)) := by
  induction n with
  | zero =>
      intro ms heap hsz _
      exact absurd hsz (by have := sizeOf_list_pos ms; omega)
  | succ n ih =>
      intro ms heap hsz hsort
      match ms with
      | [] =>
          simp only [Message.applyReceiptsAux, levelSpec]
          rw [List.filter_eq_self.mpr (by intro x hx; simp)]
      | .mk i irt rid s b h sen rea rep rec_ :: rest =>
          have hszrest : sizeOf rest ≤ n := by
            simp only [List.cons.sizeOf_spec, Message.mk.sizeOf_spec] at hsz
            omega
          have hszrep : sizeOf rep ≤ n := by
            simp only [List.cons.sizeOf_spec, Message.mk.sizeOf_spec] at hsz
            omega
          have hrep2 : (if rep.isEmpty then rep
              else (Message.applyReceiptsAux og rep og).1) =
              levelSpec og og rep := by
            cases rep with
            | nil => simp [levelSpec]
            | cons a l =>
                rw [if_neg (by simp)]
                rw [ih (a :: l) og hszrep hog]
          simp only [Message.applyReceiptsAux]
          rw [ih rest heap hszrest hsort]
          rw [hrep2]
          rw [attachReceipts_sorted _ _ (List.Pairwise.filter _ hsort)]
          rw [List.filter_filter, List.filter_filter]
          simp only [levelSpec, List.all_cons]
          unfold headPred
          rfl

/-- Each heap user lands on at most one message of any single level list
of levelSpec — exactly one, the bottom-most whose sent time is strictly
below the marker, when one exists; a marker at or below every sent time
of the level lands nowhere on it. -/
theorem levelSpec_count (og : List Receipt) (r : Receipt) :
    ∀ (ms : List Message) (heap : List Receipt),
      r ∈ heap → ((heap.map (·.userId))).Nodup →
      (∀ m ∈ ms, m.receipts = []) →
      (levelSpec og heap ms).countP
        (fun m => decide (Username.new r.userId ∈ m.receipts)) =
        if ∃ m ∈ ms, m.sent < r.timestamp then 1 else 0 := by
  intro ms
  induction ms with
  | nil =>
      intro heap _ _ _
      simp [levelSpec]
  | cons m rest ih =>
      intro heap hr hnd hempty
      obtain ⟨i, irt, rid, s, b, hh, sen, rea, rep, rec_⟩ := m
      have hrec : rec_ = [] := hempty _ (List.mem_cons_self _ _)
      subst hrec
      have hchar : Username.new r.userId ∈
          ((Message.mk i irt rid s b hh sen rea (levelSpec og og rep)
            []).addReceipts
            ((heap.filter
              (headPred (Message.mk i irt rid s b hh sen rea
                (levelSpec og og rep) []) rest)).map (·.userId))).receipts ↔
          headPred (Message.mk i irt rid s b hh sen rea
            (levelSpec og og rep) []) rest r = true := by
        rw [addReceipts_receipts]
        simp only [Message.receipts, List.nil_append]
        constructor
        · intro hmem
          rw [List.mem_map] at hmem
          obtain ⟨u, hu, hue⟩ := hmem
          rw [List.mem_map] at hu
          obtain ⟨r2, hr2, hr2u⟩ := hu
          have hid : r2.userId = r.userId := by
            rw [hr2u]
            simp only [Username.new, Username.mk.injEq] at hue
            exact hue.1
          have h5 : r2 = r :=
            List.inj_on_of_nodup_map hnd (List.mem_of_mem_filter hr2) hr hid
          rw [← h5]
          exact (List.mem_filter.mp hr2).2
        · intro hpred
          exact List.mem_map.mpr ⟨r.userId,
            List.mem_map.mpr ⟨r, List.mem_filter.mpr ⟨hr, hpred⟩, rfl⟩, rfl⟩
      simp only [levelSpec, List.countP_cons]
      rw [ih heap hr hnd (fun q hq => hempty q (by simp [hq]))]
      by_cases hrest : ∃ m2 ∈ rest, m2.sent < r.timestamp
      · have hexists : ∃ m2 ∈ Message.mk i irt rid s b hh sen rea rep [] ::
            rest, m2.sent < r.timestamp := by
          obtain ⟨m2, hm2, h3⟩ := hrest
          exact ⟨m2, by simp [hm2], h3⟩
        rw [if_pos hrest, if_pos hexists]
        have hpredf : headPred (Message.mk i irt rid s b hh sen rea
            (levelSpec og og rep) []) rest r = false := by
          obtain ⟨m2, hm2, h3⟩ := hrest
          apply Bool.eq_false_iff.mpr
          intro hTrue
          simp only [headPred, Bool.and_eq_true] at hTrue
          have h4 := List.all_eq_true.mp hTrue.2 m2 hm2
          simp [h3] at h4
        have hno : ¬Username.new r.userId ∈
            ((Message.mk i irt rid s b hh sen rea (levelSpec og og rep)
              []).addReceipts
              ((heap.filter
                (headPred (Message.mk i irt rid s b hh sen rea
                  (levelSpec og og rep) [])
                  rest)).map (·.userId))).receipts := by
          intro h2
          have h3 := hchar.mp h2
          rw [hpredf] at h3
          cases h3
        rw [if_neg (by simpa using hno)]
      · rw [if_neg hrest]
        have halltrue : (rest.all fun m2 => !decide (m2.sent < r.timestamp)) =
            true := by
          rw [List.all_eq_true]
          intro m2 hm2
          simp only [Bool.not_eq_eq_eq_not, Bool.not_true,
            decide_eq_false_iff_not]
          exact fun hlt => hrest ⟨m2, hm2, hlt⟩
        by_cases hm : s < r.timestamp
        · rw [if_pos (⟨Message.mk i irt rid s b hh sen rea rep [], by simp,
            hm⟩ : ∃ m2 ∈ Message.mk i irt rid s b hh sen rea rep [] :: rest,
            m2.sent < r.timestamp)]
          have hpredt : headPred (Message.mk i irt rid s b hh sen rea
              (levelSpec og og rep) []) rest r = true := by
            simp only [headPred, Message.sent, Bool.and_eq_true]
            exact ⟨by simpa using hm, halltrue⟩
          rw [if_pos (by simpa using hchar.mpr hpredt)]
        · have hnex : ¬∃ m2 ∈ Message.mk i irt rid s b hh sen rea rep [] ::
              rest, m2.sent < r.timestamp := by
            rintro ⟨m2, hm2, h3⟩
            rcases List.mem_cons.mp hm2 with h4 | h4
            · subst h4
              exact hm (by simpa [Message.sent] using h3)
            · exact hrest ⟨m2, h4, h3⟩
          rw [if_neg hnex]
          have hpredf : headPred (Message.mk i irt rid s b hh sen rea
              (levelSpec og og rep) []) rest r = false := by
            apply Bool.eq_false_iff.mpr
            intro hTrue
            simp only [headPred, Message.sent, Bool.and_eq_true] at hTrue
            exact hm (by simpa using hTrue.1)
          have hno : ¬Username.new r.userId ∈
              ((Message.mk i irt rid s b hh sen rea (levelSpec og og rep)
                []).addReceipts
                ((heap.filter
                  (headPred (Message.mk i irt rid s b hh sen rea
                    (levelSpec og og rep) [])
                    rest)).map (·.userId))).receipts := by
            intro h2
            have h3 := hchar.mp h2
            rw [hpredf] at h3
            cases h3
          rw [if_neg (by simpa using hno)]

/-- Counterexample to C1 as stated: a single message whose sent time
equals the user's read-marker (sent ≤ marker, so the claim requires the
receipt to land on it) receives no receipt, because apply_receipts pops
only receipts with timestamp strictly greater than sent. -/
theorem C1_receipt_fanout_counterexample :
    (Message.applyReceipts
      [Message.mk "$m" none "!r" 5 (.text "t") [] (Username.new "@u") [] [] []]
      [⟨5, "@a"⟩]).1 =
      [Message.mk "$m" none "!r" 5 (.text "t") [] (Username.new "@u")
        [] [] []] ∧
    (Message.mk "$m" none "!r" 5 (.text "t") [] (Username.new "@u")
      [] [] []).sent ≤ (5 : Timestamp) ∧
    (Message.mk "$m" none "!r" 5 (.text "t") [] (Username.new "@u")
      [] [] []).receipts = [] := by
  refine ⟨?_, le_refl 5, rfl⟩
  have h := applyReceiptsAux_flat [⟨5, "@a"⟩]
    [Message.mk "$m" none "!r" 5 (.text "t") [] (Username.new "@u") [] [] []]
    [⟨5, "@a"⟩]
    (by intro q hq; rcases List.mem_singleton.mp hq with rfl; rfl)
    (by simp)
  rw [Message.applyReceipts, h]
  simp [flatReceipts, headPred, Message.sent, addReceipts_nil]

/-- C1 (amended): with the heap in pop order and distinct users,
apply_receipts on an arbitrary message tree produces exactly levelSpec:
every level list of the tree — the top level against the heap itself,
every reply chain against a fresh copy of it — is processed like a flat
list, and on any level list whose messages start with no receipts, each
user's receipt lands on at most one message of the list: exactly the
bottom-most one whose sent time is strictly below the user's marker when
one exists, and no message at all when the marker is at or below every
sent time of the level (a receipt beating no top-level sent time stays
in the heap). -/
theorem C1_receipt_fanout_amended (ms : List Message) (heap : List Receipt)
    (hsort : List.Pairwise (fun a b => b.timestamp ≤ a.timestamp) heap)
    (hnd : ((heap.map (·.userId))).Nodup) :
    (Message.applyReceipts ms heap).1 = levelSpec heap heap ms ∧
    (∀ lvl : List Message, (∀ m ∈ lvl, m.receipts = []) → ∀ r ∈ heap,
      (levelSpec heap heap lvl).countP
        (fun m => decide (Username.new r.userId ∈ m.receipts)) =
        if ∃ m ∈ lvl, m.sent < r.timestamp then 1 else 0) ∧
    (∀ r ∈ heap, (¬∃ m ∈ ms, m.sent < r.timestamp) →
      r ∈ (Message.applyReceipts ms heap).2) := by
  have h := applyReceiptsAux_tree heap hsort (sizeOf ms) ms heap
    (le_refl _) hsort
  refine ⟨?_, ?_, ?_⟩
  · rw [Message.applyReceipts, h]
  · intro lvl hempty r hr
    exact levelSpec_count heap r lvl heap hr hnd hempty
  · intro r hr hnone
    rw [Message.applyReceipts, h]
    apply List.mem_filter.mpr
    refine ⟨hr, ?_⟩
    rw [List.all_eq_true]
    intro m hm
    simp only [Bool.not_eq_eq_eq_not, Bool.not_true, decide_eq_false_iff_not]
    exact fun hlt => hnone ⟨m, hm, hlt⟩

/-- Witness for the amended C1 at a two-level message tree (a message
carrying one reply) and two receipts. -/
theorem C1_receipt_fanout_amended_witness :
    (Message.applyReceipts
      [Message.mk "$m1" none "!r" 1 (.text "a") [] (Username.new "@u") []
        [Message.mk "$c" (some "$m1") "!r" 3 (.text "c") []
          (Username.new "@u") [] [] []]
        []]
      [⟨4, "@b"⟩, ⟨2, "@a"⟩]).1 =
    levelSpec [⟨4, "@b"⟩, ⟨2, "@a"⟩] [⟨4, "@b"⟩, ⟨2, "@a"⟩]
      [Message.mk "$m1" none "!r" 1 (.text "a") [] (Username.new "@u") []
        [Message.mk "$c" (some "$m1") "!r" 3 (.text "c") []
          (Username.new "@u") [] [] []]
        []] :=
  (C1_receipt_fanout_amended
    [Message.mk "$m1" none "!r" 1 (.text "a") [] (Username.new "@u") []
      [Message.mk "$c" (some "$m1") "!r" 3 (.text "c") []
        (Username.new "@u") [] [] []]
      []]
    [⟨4, "@b"⟩, ⟨2, "@a"⟩]
    (by simp)
    (by decide)).1
